import Mathlib

/-!
# Byte FIFO of Robocon-Lib-UART (`FIFO.h`, `FIFO.c`)

A shallow embedding of the software FIFO buffer and of the statements made
about it.

* `uint8_t` data bytes are elements of `Fin 256`.
* The index fields `getindex` / `putindex` are `uint8_t` in the source; they are
  natural numbers here and every increment is reduced `% 256` explicitly.
* The fields `size` / `count` are `int16_t` in the source; they are integers
  here and every increment / decrement goes through `int16_t_wrap`.
* `buffer` is the storage region the pointer refers to, as the list of its
  slots.  An access outside of the region is undefined behaviour in C; the
  operations that touch the storage return `none` in that case.
* The interrupt flag handling (`SREG`, `cli()`) does not take part in the
  sequential results of the operations and is not part of this state; the
  operations are embedded a second time, with `SREG` as explicit state, as
  `FIFO_Clear_sreg`, `FIFO_Get_sreg`, ... and shown to agree with the first.
* The write side of the serial driver (`UART_ATMega328p.c`: `UART_Write` and the
  handler of `USART_UDRE_vect`) is embedded over the two FIFOs, the register
  `UCSR0B` and the bytes written to `UDR0`.  The bit number `UDRIE0` comes from
  the device header and is a parameter.
-/

namespace FIFO

/-- A data byte (`uint8_t`). -/
abbrev uint8_t := Fin 256

/-- Conversion of an integer value to `int16_t` (two's complement). -/
def int16_t_wrap (x : Int) : Int := (x + 32768) % 65536 - 32768

/-- Conversion of an integer value to `uint16_t`. -/
def uint16_t_wrap (x : Int) : Nat := (x % 65536).toNat

/-- The record `fifo_type_s` of `FIFO.h`. -/
structure fifo_type_s where
  buffer : List uint8_t
  size : Int
  getindex : Nat
  putindex : Nat
  count : Int
deriving DecidableEq

/-- The macro `FIFO_New(name, size)`: a zero-initialised static array of `size`
bytes and the record `{fifobuff, (size), 0, 0, 0}`. -/
def FIFO_New (size : Nat) : fifo_type_s :=
  { buffer := List.replicate size 0
    size := int16_t_wrap size
    getindex := 0
    putindex := 0
    count := 0 }

/-- The function `FIFO_Clear`. -/
def FIFO_Clear (fifo : fifo_type_s) : fifo_type_s :=
  { fifo with count := 0, getindex := 0, putindex := 0 }

/-- The function `FIFO_Size`. -/
def FIFO_Size (fifo : fifo_type_s) : Int :=
  fifo.size

/-- The function `FIFO_Get`: the returned `int16_t` and the new record. -/
def FIFO_Get (fifo : fifo_type_s) : Option (Int × fifo_type_s) :=
  if fifo.count ≤ 0 then
    some (-1, fifo)
  else
    match fifo.buffer[fifo.getindex]? with
    | none => none
    | some getdata =>
      let getindex := (fifo.getindex + 1) % 256
      let getindex := if ((getindex : Nat) : Int) ≥ fifo.size then 0 else getindex
      let count := int16_t_wrap (fifo.count - 1)
      some (((getdata.val : Nat) : Int),
        { fifo with getindex := getindex, count := count })

/-- The function `FIFO_Peek`: the returned `int16_t` and the (same) record. -/
def FIFO_Peek (fifo : fifo_type_s) : Option (Int × fifo_type_s) :=
  if fifo.count ≤ 0 then
    some (-1, fifo)
  else
    match fifo.buffer[fifo.getindex]? with
    | none => none
    | some getdata => some (((getdata.val : Nat) : Int), fifo)

/-- The function `FIFO_Put`: the returned `uint8_t` status and the new record. -/
def FIFO_Put (fifo : fifo_type_s) (putdata : uint8_t) : Option (Nat × fifo_type_s) :=
  if fifo.count ≥ fifo.size then
    some (0, fifo)
  else if fifo.putindex < fifo.buffer.length then
    let buffer := fifo.buffer.set fifo.putindex putdata
    let putindex := (fifo.putindex + 1) % 256
    let putindex := if ((putindex : Nat) : Int) ≥ fifo.size then 0 else putindex
    let count := int16_t_wrap (fifo.count + 1)
    some (1, { fifo with buffer := buffer, putindex := putindex, count := count })
  else
    none

/-- The function `FIFO_Count`: the `int16_t` count returned as `uint16_t`. -/
def FIFO_Count (fifo : fifo_type_s) : Nat :=
  uint16_t_wrap fifo.count

/-! ## Sequences of calls -/

/-- One call of the FIFO interface. -/
inductive fifo_call where
  | Clear
  | Size
  | Get
  | Peek
  | Put (putdata : uint8_t)
  | Count
deriving DecidableEq

/-- What a call returned. -/
inductive fifo_ret where
  | void
  | int16 (v : Int)
  | uint8 (v : Nat)
  | uint16 (v : Nat)
deriving DecidableEq

/-- Perform one call. -/
def call (fifo : fifo_type_s) : fifo_call → Option (fifo_ret × fifo_type_s)
  | .Clear => some (.void, FIFO_Clear fifo)
  | .Size => some (.int16 (FIFO_Size fifo), fifo)
  | .Get => (FIFO_Get fifo).map (fun r => (.int16 r.1, r.2))
  | .Peek => (FIFO_Peek fifo).map (fun r => (.int16 r.1, r.2))
  | .Put putdata => (FIFO_Put fifo putdata).map (fun r => (.uint8 r.1, r.2))
  | .Count => some (.uint16 (FIFO_Count fifo), fifo)

/-- Perform a sequence of calls, left to right; the result is the transcript
(each call with what it returned) and the final record. -/
def run (fifo : fifo_type_s) : List fifo_call → Option (List (fifo_call × fifo_ret) × fifo_type_s)
  | [] => some ([], fifo)
  | c :: cs =>
    match call fifo c with
    | none => none
    | some (r, fifo1) =>
      match run fifo1 cs with
      | none => none
      | some (log, fifo2) => some ((c, r) :: log, fifo2)

/-- The bytes of the successful `FIFO_Put` calls of a transcript, in order. -/
def successfulPuts : List (fifo_call × fifo_ret) → List uint8_t
  | [] => []
  | (.Put putdata, .uint8 r) :: t =>
    if r ≠ 0 then putdata :: successfulPuts t else successfulPuts t
  | _ :: t => successfulPuts t

/-- The values of the successful `FIFO_Get` calls of a transcript, in order. -/
def successfulGets : List (fifo_call × fifo_ret) → List Int
  | [] => []
  | (.Get, .int16 v) :: t =>
    if v ≠ -1 then v :: successfulGets t else successfulGets t
  | _ :: t => successfulGets t

/-- The returned values of a transcript. -/
def returns (log : List (fifo_call × fifo_ret)) : List fifo_ret :=
  log.map Prod.snd

/-- The value of a byte as the `int16_t` that `FIFO_Get` returns for it. -/
def byteValue (b : uint8_t) : Int := ((b.val : Nat) : Int)

/-- The unread bytes of a FIFO whose ring has `m` slots, oldest first:
`buffer[getindex]`, `buffer[(getindex+1) mod m]`, ... (`count` of them). -/
def contents (m : Nat) (fifo : fifo_type_s) : List uint8_t :=
  (List.range fifo.count.toNat).map
    (fun i => fifo.buffer.getD ((fifo.getindex + i) % m) 0)

/-- The calls of the scenario of the specification on a FIFO of capacity 4. -/
def scenario : List fifo_call :=
  [.Put 10, .Put 20, .Put 30, .Put 40, .Put 50, .Get, .Put 50,
   .Get, .Get, .Get, .Get, .Get]

/-- The index update that `FIFO_Get` and `FIFO_Put` both perform on their
`uint8_t` index: `index++; if ( index >= size ) index = 0;`. -/
def next_index (index : Nat) (size : Int) : Nat :=
  if (((index + 1) % 256 : Nat) : Int) ≥ size then 0 else (index + 1) % 256

/-- 257 bytes: a 7, then 255 zeros, then a 9. -/
def overrunBytes : List uint8_t :=
  7 :: (List.replicate 255 0 ++ [9])

/-- 257 calls of `FIFO_Put`, storing `overrunBytes`, and one `FIFO_Get`. -/
def overrunCalls : List fifo_call :=
  overrunBytes.map fifo_call.Put ++ [fifo_call.Get]

/-- 257 bytes: a 1, then 255 twos, then a 3. -/
def batchBytes : List uint8_t :=
  1 :: (List.replicate 255 2 ++ [3])

/-- A FIFO of capacity 257 after 255 calls `FIFO_Put` of a zero byte and 255
calls `FIFO_Get`: it is empty and both indices are 255. -/
def emptyAt255 : fifo_type_s :=
  { buffer := List.replicate 257 0
    size := 257
    getindex := 255
    putindex := 255
    count := 0 }

/-- A FIFO of capacity 257 after 256 calls `FIFO_Put` of a zero byte and 255
calls `FIFO_Get`: one byte is unread, the read index is 255 and the write
index has gone from 255 to 0. -/
def oneAt255 : fifo_type_s :=
  { buffer := List.replicate 257 0
    size := 257
    getindex := 255
    putindex := 0
    count := 1 }

/-- Number of slots the 8-bit indices actually cycle through for a capacity `C`:
all `C` of them when `C ≤ 256`, the first 256 otherwise. -/
def ringSize (C : Nat) : Nat := min C 256

/-- Well-formed record of capacity `C`: the storage has `C` slots, `size` is
`C` and fits `int16_t`, both indices are inside the ring and `count` is
between `0` and `C`. -/
def Inv (C : Nat) (fifo : fifo_type_s) : Prop :=
  0 < C ∧ C ≤ 32767 ∧ fifo.size = (C : Int) ∧ fifo.buffer.length = C ∧
  fifo.getindex < ringSize C ∧ fifo.putindex < ringSize C ∧
  0 ≤ fifo.count ∧ fifo.count ≤ (C : Int)

/-- Ring discipline: on top of `Inv`, no more bytes are unread than the ring
has slots and the write index is `count` slots ahead of the read index. -/
def Ring (C : Nat) (fifo : fifo_type_s) : Prop :=
  Inv C fifo ∧ fifo.count ≤ (ringSize C : Int) ∧
  fifo.putindex = (fifo.getindex + fifo.count.toNat) % ringSize C

/-- A FIFO of capacity `C` as `FIFO_New` creates it, or as `FIFO_Clear` leaves a
record whose storage has `C` slots and whose `size` is `C`. -/
def Fresh (C : Nat) (fifo : fifo_type_s) : Prop :=
  fifo = FIFO_New C ∨
  ∃ fifo0 : fifo_type_s, fifo0.size = (C : Int) ∧ fifo0.buffer.length = C ∧
    fifo = FIFO_Clear fifo0

/-- A FIFO of capacity 4 after `FIFO_Put(10)`, `FIFO_Put(20)`, `FIFO_Get`. -/
def afterPutPutGet : fifo_type_s :=
  { buffer := [10, 20, 0, 0]
    size := 4
    getindex := 1
    putindex := 2
    count := 1 }

/-- The state predicate of the data model for a capacity `C`:
`0 ≤ count ≤ C`, `0 ≤ getindex < C` and `0 ≤ putindex < C`. -/
def StateInvariant (C : Nat) (fifo : fifo_type_s) : Prop :=
  0 ≤ fifo.count ∧ fifo.count ≤ (C : Int) ∧ fifo.getindex < C ∧ fifo.putindex < C

/-- A record that some sequence of calls produces from a new or cleared FIFO of
capacity `C`. -/
def Reachable (C : Nat) (fifo : fifo_type_s) : Prop :=
  ∃ (start : fifo_type_s) (calls : List fifo_call) (log : List (fifo_call × fifo_ret)),
    Fresh C start ∧ run start calls = some (log, fifo)

/-! ## The operations with the status register as state -/

/-- The status register `SREG` of the processor next to the record. -/
structure avr_state where
  SREG : Nat
  fifo : fifo_type_s
deriving DecidableEq

/-- The instruction `cli()`: it clears the global interrupt flag, bit 7 of the
8-bit register `SREG`. -/
def cli (SREG : Nat) : Nat := SREG % 128

/-- The function `FIFO_Clear`, statement by statement, with `SREG`. -/
def FIFO_Clear_sreg (m : avr_state) : avr_state :=
  let sreg_save := m.SREG % 256
  let m := { m with SREG := cli m.SREG }
  let m := { m with fifo := { m.fifo with count := 0 } }
  let m := { m with fifo := { m.fifo with getindex := 0 } }
  let m := { m with fifo := { m.fifo with putindex := 0 } }
  { m with SREG := sreg_save }

/-- The function `FIFO_Get`, statement by statement, with `SREG`. -/
def FIFO_Get_sreg (m : avr_state) : Option (Int × avr_state) :=
  let sreg_save := m.SREG % 256
  let m := { m with SREG := cli m.SREG }
  if m.fifo.count ≤ 0 then
    let m := { m with SREG := sreg_save }
    some (-1, m)
  else
    match m.fifo.buffer[m.fifo.getindex]? with
    | none => none
    | some getdata =>
      let getindex := (m.fifo.getindex + 1) % 256
      let getindex := if ((getindex : Nat) : Int) ≥ m.fifo.size then 0 else getindex
      let count := int16_t_wrap (m.fifo.count - 1)
      let m := { m with fifo := { m.fifo with getindex := getindex, count := count } }
      let m := { m with SREG := sreg_save }
      some (((getdata.val : Nat) : Int), m)

/-- The function `FIFO_Peek`, statement by statement, with `SREG`. -/
def FIFO_Peek_sreg (m : avr_state) : Option (Int × avr_state) :=
  let sreg_save := m.SREG % 256
  let m := { m with SREG := cli m.SREG }
  if m.fifo.count ≤ 0 then
    let m := { m with SREG := sreg_save }
    some (-1, m)
  else
    match m.fifo.buffer[m.fifo.getindex]? with
    | none => none
    | some getdata =>
      let m := { m with SREG := sreg_save }
      some (((getdata.val : Nat) : Int), m)

/-- The function `FIFO_Put`, statement by statement, with `SREG`. -/
def FIFO_Put_sreg (m : avr_state) (putdata : uint8_t) : Option (Nat × avr_state) :=
  let sreg_save := m.SREG % 256
  let m := { m with SREG := cli m.SREG }
  if m.fifo.count ≥ m.fifo.size then
    let m := { m with SREG := sreg_save }
    some (0, m)
  else if m.fifo.putindex < m.fifo.buffer.length then
    let buffer := m.fifo.buffer.set m.fifo.putindex putdata
    let putindex := (m.fifo.putindex + 1) % 256
    let putindex := if ((putindex : Nat) : Int) ≥ m.fifo.size then 0 else putindex
    let count := int16_t_wrap (m.fifo.count + 1)
    let m := { m with
      fifo := { m.fifo with buffer := buffer, putindex := putindex, count := count } }
    let m := { m with SREG := sreg_save }
    some (1, m)
  else
    none

/-- The function `FIFO_Count`, statement by statement, with `SREG` (the initial
value 0 of `c` is overwritten before it is used). -/
def FIFO_Count_sreg (m : avr_state) : Nat × avr_state :=
  let sreg_save := m.SREG % 256
  let m := { m with SREG := cli m.SREG }
  let c := m.fifo.count
  let m := { m with SREG := sreg_save }
  (uint16_t_wrap c, m)

/-! ## The write side of the serial driver -/

/-- The constant `TX_BUFFER_SIZE` of `UART_ATMega328p.h`. -/
def TX_BUFFER_SIZE : Nat := 64

/-- The constant `RX_BUFFER_SIZE` of `UART_ATMega328p.h`. -/
def RX_BUFFER_SIZE : Nat := 64

/-- The bit value `_BV(bit)`, that is `1 << bit`. -/
def BV (bit : Nat) : Nat := 1 <<< bit

/-- What the driver works on: its two FIFOs, the 8-bit control register
`UCSR0B`, and the bytes written to the transmit data register `UDR0`, oldest
first. -/
structure uart_state where
  TX_BUFFER : fifo_type_s
  RX_BUFFER : fifo_type_s
  UCSR0B : Nat
  UDR0 : List Nat
deriving DecidableEq

/-- The statement `E_TX_INT`: `UCSR0B |= _BV(UDRIE0)` on the 8-bit register. -/
def E_TX_INT (UDRIE0 : Nat) (UCSR0B : Nat) : Nat :=
  (UCSR0B ||| BV UDRIE0) % 256

/-- The statement `D_TX_INT`: `UCSR0B &= ~_BV(UDRIE0)` on the 8-bit register,
the complement being taken on the 16-bit `int`. -/
def D_TX_INT (UDRIE0 : Nat) (UCSR0B : Nat) : Nat :=
  (UCSR0B &&& (65535 ^^^ BV UDRIE0)) % 256

/-- The function `UART_Write`: the returned status and the new state. -/
def UART_Write (UDRIE0 : Nat) (u : uart_state) (data : uint8_t) : Option (Nat × uart_state) :=
  match FIFO_Put u.TX_BUFFER data with
  | none => none
  | some (status, tx) =>
    let u := { u with TX_BUFFER := tx }
    if status ≠ 0 then
      some (1, { u with UCSR0B := E_TX_INT UDRIE0 u.UCSR0B })
    else
      some (0, u)

/-- The interrupt handler `ISR(USART_UDRE_vect)`. -/
def USART_UDRE_vect (UDRIE0 : Nat) (u : uart_state) : Option uart_state :=
  if FIFO_Count u.TX_BUFFER > 0 then
    match FIFO_Get u.TX_BUFFER with
    | none => none
    | some (r, tx) =>
      let data := (r % 256).toNat
      some { u with TX_BUFFER := tx, UDR0 := u.UDR0 ++ [data] }
  else
    some { u with UCSR0B := D_TX_INT UDRIE0 u.UCSR0B }

/-! ## A bounded queue of bytes -/

/-- Bounded queue, clear: the queue becomes empty. -/
def queue_Clear (_q : List uint8_t) : List uint8_t := []

/-- Bounded queue of capacity `C`, put: success and the byte appended when
fewer than `C` bytes are queued, failure and the queue as it was otherwise. -/
def queue_Put (C : Nat) (q : List uint8_t) (b : uint8_t) : Nat × List uint8_t :=
  if q.length < C then (1, q ++ [b]) else (0, q)

/-- Bounded queue, get: the head and the tail of a non-empty queue, -1 and the
queue as it was otherwise. -/
def queue_Get : List uint8_t → Int × List uint8_t
  | [] => (-1, [])
  | b :: q => (((b.val : Nat) : Int), q)

/-- Bounded queue, peek: the head of a non-empty queue, -1 otherwise; the queue
stays as it was. -/
def queue_Peek : List uint8_t → Int × List uint8_t
  | [] => (-1, [])
  | b :: q => (((b.val : Nat) : Int), b :: q)

/-- Bounded queue, count: the number of queued bytes. -/
def queue_Count (q : List uint8_t) : Nat := q.length

end FIFO

namespace FIFO

/-! ## The operations, with the index update named -/

theorem FIFO_Get_eq (fifo : fifo_type_s) :
    FIFO_Get fifo =
      if fifo.count ≤ 0 then some (-1, fifo)
      else
        match fifo.buffer[fifo.getindex]? with
        | none => none
        | some getdata =>
          some (((getdata.val : Nat) : Int),
            { fifo with
              getindex := next_index fifo.getindex fifo.size
              count := int16_t_wrap (fifo.count - 1) }) :=
  rfl

theorem FIFO_Put_eq (fifo : fifo_type_s) (putdata : uint8_t) :
    FIFO_Put fifo putdata =
      if fifo.count ≥ fifo.size then some (0, fifo)
      else if fifo.putindex < fifo.buffer.length then
        some (1,
          { fifo with
            buffer := fifo.buffer.set fifo.putindex putdata
            putindex := next_index fifo.putindex fifo.size
            count := int16_t_wrap (fifo.count + 1) })
      else none :=
  rfl

/-! ## Arithmetic of the fields -/

theorem int16_t_wrap_id {x : Int} (h1 : -32768 ≤ x) (h2 : x ≤ 32767) :
    int16_t_wrap x = x := by
  unfold int16_t_wrap
  omega

theorem ringSize_pos {C : Nat} (h : 0 < C) : 0 < ringSize C := by
  unfold ringSize
  omega

theorem ringSize_le (C : Nat) : ringSize C ≤ C := by
  unfold ringSize
  omega

theorem ringSize_le_256 (C : Nat) : ringSize C ≤ 256 := by
  unfold ringSize
  omega

theorem ringSize_of_le {C : Nat} (h : C ≤ 256) : ringSize C = C := by
  unfold ringSize
  omega

/-- Inside the ring the index update of the source is the successor modulo the
ring size. -/
theorem next_index_eq {C i : Nat} (hC : 0 < C) (hi : i < ringSize C) :
    next_index i (C : Int) = (i + 1) % ringSize C := by
  unfold next_index
  unfold ringSize at *
  by_cases h : i + 1 < min C 256
  · rw [Nat.mod_eq_of_lt h]
    have h1 : (i + 1) % 256 = i + 1 := Nat.mod_eq_of_lt (by omega)
    simp only [h1]
    rw [if_neg (by omega)]
  · have h2 : i + 1 = min C 256 := by omega
    rw [h2, Nat.mod_self]
    by_cases h3 : C ≤ 256
    · have h4 : min C 256 = C := by omega
      rw [h4]
      by_cases h5 : C = 256
      · subst h5
        simp
      · have h6 : C % 256 = C := Nat.mod_eq_of_lt (by omega)
        simp [h6]
    · have h4 : min C 256 = 256 := by omega
      rw [h4]
      simp

theorem next_index_lt {C i : Nat} (hC : 0 < C) (hi : i < ringSize C) :
    next_index i (C : Int) < ringSize C := by
  rw [next_index_eq hC hi]
  exact Nat.mod_lt _ (ringSize_pos hC)

/-! ## The operations on well-formed records -/

theorem FIFO_Put_full (fifo : fifo_type_s) (putdata : uint8_t)
    (h : fifo.count ≥ fifo.size) : FIFO_Put fifo putdata = some (0, fifo) := by
  rw [FIFO_Put_eq]
  rw [if_pos h]

theorem FIFO_Put_ok {C : Nat} {fifo : fifo_type_s} (putdata : uint8_t)
    (h : Inv C fifo) (hc : fifo.count < (C : Int)) :
    FIFO_Put fifo putdata = some (1,
      { fifo with
        buffer := fifo.buffer.set fifo.putindex putdata
        putindex := (fifo.putindex + 1) % ringSize C
        count := fifo.count + 1 }) := by
  obtain ⟨hC, hC2, hs, hl, hg, hp, h0, h1⟩ := h
  have hle := ringSize_le C
  rw [FIFO_Put_eq]
  rw [if_neg (by omega), if_pos (by omega), hs, next_index_eq hC hp,
    int16_t_wrap_id (by omega) (by omega)]

theorem FIFO_Get_empty (fifo : fifo_type_s) (h : fifo.count ≤ 0) :
    FIFO_Get fifo = some (-1, fifo) := by
  rw [FIFO_Get_eq]
  rw [if_pos h]

theorem FIFO_Peek_empty (fifo : fifo_type_s) (h : fifo.count ≤ 0) :
    FIFO_Peek fifo = some (-1, fifo) := by
  unfold FIFO_Peek
  rw [if_pos h]

theorem FIFO_Get_ok {C : Nat} {fifo : fifo_type_s}
    (h : Inv C fifo) (hc : 0 < fifo.count) :
    FIFO_Get fifo = some (byteValue (fifo.buffer.getD fifo.getindex 0),
      { fifo with
        getindex := (fifo.getindex + 1) % ringSize C
        count := fifo.count - 1 }) := by
  obtain ⟨hC, hC2, hs, hl, hg, hp, h0, h1⟩ := h
  have hle := ringSize_le C
  have hlt : fifo.getindex < fifo.buffer.length := by omega
  rw [FIFO_Get_eq]
  rw [if_neg (by omega), List.getElem?_eq_getElem hlt, hs, next_index_eq hC hg,
    int16_t_wrap_id (by omega) (by omega), List.getD_eq_getElem _ _ hlt]
  rfl

theorem FIFO_Peek_ok {C : Nat} {fifo : fifo_type_s}
    (h : Inv C fifo) (hc : 0 < fifo.count) :
    FIFO_Peek fifo = some (byteValue (fifo.buffer.getD fifo.getindex 0), fifo) := by
  obtain ⟨hC, hC2, hs, hl, hg, hp, h0, h1⟩ := h
  have hle := ringSize_le C
  have hlt : fifo.getindex < fifo.buffer.length := by omega
  unfold FIFO_Peek
  rw [if_neg (by omega), List.getElem?_eq_getElem hlt, List.getD_eq_getElem _ _ hlt]
  rfl

theorem Inv_Put {C : Nat} {fifo : fifo_type_s} (putdata : uint8_t)
    (h : Inv C fifo) (hc : fifo.count < (C : Int)) :
    Inv C { fifo with
        buffer := fifo.buffer.set fifo.putindex putdata
        putindex := (fifo.putindex + 1) % ringSize C
        count := fifo.count + 1 } := by
  obtain ⟨hC, hC2, hs, hl, hg, hp, h0, h1⟩ := h
  refine ⟨hC, hC2, hs, ?_, hg, Nat.mod_lt _ (ringSize_pos hC), ?_, ?_⟩
  · simpa using hl
  · show 0 ≤ fifo.count + 1
    omega
  · show fifo.count + 1 ≤ (C : Int)
    omega

theorem Inv_Get {C : Nat} {fifo : fifo_type_s}
    (h : Inv C fifo) (hc : 0 < fifo.count) :
    Inv C { fifo with
        getindex := (fifo.getindex + 1) % ringSize C
        count := fifo.count - 1 } := by
  obtain ⟨hC, hC2, hs, hl, hg, hp, h0, h1⟩ := h
  refine ⟨hC, hC2, hs, hl, Nat.mod_lt _ (ringSize_pos hC), hp, ?_, ?_⟩
  · show 0 ≤ fifo.count - 1
    omega
  · show fifo.count - 1 ≤ (C : Int)
    omega

theorem Inv_of_Fresh {C : Nat} {fifo : fifo_type_s} (hC : 0 < C) (hC2 : C ≤ 32767)
    (h : Fresh C fifo) : Inv C fifo ∧ fifo.count = 0 ∧ fifo.getindex = 0 ∧ fifo.putindex = 0 := by
  have hr := ringSize_pos hC
  rcases h with h | ⟨fifo0, hs, hl, h⟩
  · subst h
    refine ⟨⟨hC, hC2, ?_, ?_, hr, hr, ?_, ?_⟩, rfl, rfl, rfl⟩
    · show int16_t_wrap (C : Int) = (C : Int)
      exact int16_t_wrap_id (by omega) (by omega)
    · simp [FIFO_New]
    · simp [FIFO_New]
    · simp [FIFO_New]
  · subst h
    refine ⟨⟨hC, hC2, hs, hl, hr, hr, ?_, ?_⟩, rfl, rfl, rfl⟩
    · simp [FIFO_Clear]
    · simp [FIFO_Clear]

/-! ## The unread bytes -/

theorem add_mod_ne {m g i n : Nat} (hi : i < n) (hn : n < m) :
    (g + i) % m ≠ (g + n) % m := by
  intro h
  have h1 : (g + n - (g + i)) % m = 0 := Nat.sub_mod_eq_zero_of_mod_eq h.symm
  have h2 : g + n - (g + i) = n - i := by omega
  rw [h2, Nat.mod_eq_of_lt (by omega)] at h1
  omega

theorem contents_Put {C : Nat} {fifo : fifo_type_s} (putdata : uint8_t)
    (h : Ring C fifo) (hc : fifo.count < (ringSize C : Int)) :
    contents (ringSize C) { fifo with
        buffer := fifo.buffer.set fifo.putindex putdata
        putindex := (fifo.putindex + 1) % ringSize C
        count := fifo.count + 1 } = contents (ringSize C) fifo ++ [putdata] := by
  obtain ⟨⟨hC, hC2, hs, hl, hg, hp, h0, h1⟩, h2, h3⟩ := h
  have hle := ringSize_le C
  unfold contents
  have hn : (fifo.count + 1).toNat = fifo.count.toNat + 1 := by omega
  simp only [hn, List.range_succ, List.map_append, List.map_cons, List.map_nil]
  congr 1
  · apply List.map_congr_left
    intro i hi
    rw [List.mem_range] at hi
    have hne : (fifo.getindex + i) % ringSize C ≠ fifo.putindex := by
      rw [h3]
      exact add_mod_ne hi (by omega)
    simp [List.getD_eq_getElem?_getD, List.getElem?_set_ne (Ne.symm hne)]
  · rw [← h3]
    have hpl : fifo.putindex < fifo.buffer.length := by omega
    simp [List.getD_eq_getElem?_getD, List.getElem?_set_self hpl]

theorem Ring_Put {C : Nat} {fifo : fifo_type_s} (putdata : uint8_t)
    (h : Ring C fifo) (hc : fifo.count < (ringSize C : Int)) :
    Ring C { fifo with
        buffer := fifo.buffer.set fifo.putindex putdata
        putindex := (fifo.putindex + 1) % ringSize C
        count := fifo.count + 1 } := by
  have hle := ringSize_le C
  have hi := Inv_Put putdata h.1 (by omega)
  obtain ⟨⟨hC, hC2, hs, hl, hg, hp, h0, h1⟩, h2, h3⟩ := h
  refine ⟨hi, ?_, ?_⟩
  · show fifo.count + 1 ≤ (ringSize C : Int)
    omega
  · show (fifo.putindex + 1) % ringSize C
      = (fifo.getindex + (fifo.count + 1).toNat) % ringSize C
    have hn : (fifo.count + 1).toNat = fifo.count.toNat + 1 := by omega
    rw [hn, h3, ← Nat.add_assoc, Nat.mod_add_mod]

theorem contents_Get {C : Nat} {fifo : fifo_type_s}
    (h : Ring C fifo) (hc : 0 < fifo.count) :
    contents (ringSize C) fifo = fifo.buffer.getD fifo.getindex 0 ::
      contents (ringSize C) { fifo with
        getindex := (fifo.getindex + 1) % ringSize C
        count := fifo.count - 1 } := by
  obtain ⟨⟨hC, hC2, hs, hl, hg, hp, h0, h1⟩, h2, h3⟩ := h
  unfold contents
  have hn : fifo.count.toNat = (fifo.count - 1).toNat + 1 := by omega
  rw [hn, List.range_succ_eq_map]
  simp only [List.map_cons, List.map_map, Nat.add_zero]
  congr 1
  · rw [Nat.mod_eq_of_lt hg]
  · apply List.map_congr_left
    intro i _
    simp only [Function.comp]
    congr 1
    rw [Nat.mod_add_mod]
    congr 1
    omega

theorem Ring_Get {C : Nat} {fifo : fifo_type_s}
    (h : Ring C fifo) (hc : 0 < fifo.count) :
    Ring C { fifo with
        getindex := (fifo.getindex + 1) % ringSize C
        count := fifo.count - 1 } := by
  have hi := Inv_Get h.1 hc
  obtain ⟨⟨hC, hC2, hs, hl, hg, hp, h0, h1⟩, h2, h3⟩ := h
  refine ⟨hi, ?_, ?_⟩
  · show fifo.count - 1 ≤ (ringSize C : Int)
    omega
  · show fifo.putindex
      = ((fifo.getindex + 1) % ringSize C + (fifo.count - 1).toNat) % ringSize C
    have hn : fifo.count.toNat = (fifo.count - 1).toNat + 1 := by omega
    rw [h3, hn, Nat.mod_add_mod]
    congr 1
    omega

theorem contents_length (m : Nat) (fifo : fifo_type_s) :
    (contents m fifo).length = fifo.count.toNat := by
  simp [contents]

theorem Ring_of_Fresh {C : Nat} {fifo : fifo_type_s} (hC : 0 < C) (hC2 : C ≤ 32767)
    (h : Fresh C fifo) : Ring C fifo ∧ contents (ringSize C) fifo = [] := by
  obtain ⟨hi, hc, hg, hp⟩ := Inv_of_Fresh hC hC2 h
  refine ⟨⟨hi, ?_, ?_⟩, ?_⟩
  · rw [hc]
    omega
  · rw [hc, hg, hp]
    simp
  · simp [contents, hc]

/-! ## Sequences of calls on well-formed records -/

theorem run_cons_of_call {fifo fifo1 fifo2 : fifo_type_s} {c : fifo_call} {r : fifo_ret}
    {cs : List fifo_call} {log : List (fifo_call × fifo_ret)}
    (h1 : call fifo c = some (r, fifo1)) (h2 : run fifo1 cs = some (log, fifo2)) :
    run fifo (c :: cs) = some ((c, r) :: log, fifo2) := by
  simp [run, h1, h2]

theorem call_Peek_of_Inv {C : Nat} {fifo : fifo_type_s} (h : Inv C fifo) :
    ∃ v, call fifo fifo_call.Peek = some (fifo_ret.int16 v, fifo) := by
  by_cases hc : fifo.count ≤ 0
  · exact ⟨-1, by simp [call, FIFO_Peek_empty fifo hc]⟩
  · exact ⟨byteValue (fifo.buffer.getD fifo.getindex 0),
      by simp [call, FIFO_Peek_ok h (by omega)]⟩

theorem call_Get_ok {C : Nat} {fifo : fifo_type_s}
    (h : Inv C fifo) (hc : 0 < fifo.count) :
    call fifo fifo_call.Get
      = some (fifo_ret.int16 (byteValue (fifo.buffer.getD fifo.getindex 0)),
          { fifo with
            getindex := (fifo.getindex + 1) % ringSize C
            count := fifo.count - 1 }) := by
  simp [call, FIFO_Get_ok h hc]

theorem call_Put_ok {C : Nat} {fifo : fifo_type_s} (putdata : uint8_t)
    (h : Inv C fifo) (hc : fifo.count < (C : Int)) :
    call fifo (fifo_call.Put putdata)
      = some (fifo_ret.uint8 1,
          { fifo with
            buffer := fifo.buffer.set fifo.putindex putdata
            putindex := (fifo.putindex + 1) % ringSize C
            count := fifo.count + 1 }) := by
  simp [call, FIFO_Put_ok putdata h hc]

/-- Any sequence of calls without `FIFO_Clear` on a record in ring discipline of
capacity at most 256 runs to the end, and what the successful `FIFO_Get`s
returned followed by what is still unread is what was unread at the start
followed by what the successful `FIFO_Put`s stored. -/
theorem run_order {C : Nat} (hC : C ≤ 256) :
    ∀ (calls : List fifo_call) (fifo : fifo_type_s), Ring C fifo →
      (∀ c ∈ calls, c ≠ fifo_call.Clear) →
      ∃ log fifo1, run fifo calls = some (log, fifo1) ∧ Ring C fifo1 ∧
        log.map Prod.fst = calls ∧
        successfulGets log ++ (contents (ringSize C) fifo1).map byteValue
          = (contents (ringSize C) fifo ++ successfulPuts log).map byteValue
  | [], fifo, h, _ => ⟨[], fifo, rfl, h, rfl, by simp [successfulGets, successfulPuts]⟩
  | c :: cs, fifo, h, hnc => by
    have hcs : ∀ c ∈ cs, c ≠ fifo_call.Clear := fun c hc => hnc c (List.mem_cons_of_mem _ hc)
    have hrs := ringSize_of_le hC
    cases c with
    | Clear => exact absurd rfl (hnc _ (List.mem_cons_self _ _))
    | Size =>
      obtain ⟨log, f1, hr, hR, hm, ho⟩ := run_order hC cs fifo h hcs
      exact ⟨_, f1, run_cons_of_call rfl hr, hR, by simp [hm], by simpa [successfulGets, successfulPuts] using ho⟩
    | Count =>
      obtain ⟨log, f1, hr, hR, hm, ho⟩ := run_order hC cs fifo h hcs
      exact ⟨_, f1, run_cons_of_call rfl hr, hR, by simp [hm], by simpa [successfulGets, successfulPuts] using ho⟩
    | Peek =>
      obtain ⟨log, f1, hr, hR, hm, ho⟩ := run_order hC cs fifo h hcs
      obtain ⟨v, hv⟩ := call_Peek_of_Inv h.1
      exact ⟨_, f1, run_cons_of_call hv hr, hR, by simp [hm], by simpa [successfulGets, successfulPuts] using ho⟩
    | Get =>
      by_cases hc : fifo.count ≤ 0
      · obtain ⟨log, f1, hr, hR, hm, ho⟩ := run_order hC cs fifo h hcs
        have hv : call fifo fifo_call.Get = some (fifo_ret.int16 (-1), fifo) := by
          simp [call, FIFO_Get_empty fifo hc]
        exact ⟨_, f1, run_cons_of_call hv hr, hR, by simp [hm], by simpa [successfulGets, successfulPuts] using ho⟩
      · have hc1 : 0 < fifo.count := by omega
        obtain ⟨log, f1, hr, hR, hm, ho⟩ := run_order hC cs _ (Ring_Get h hc1) hcs
        refine ⟨_, f1, run_cons_of_call (call_Get_ok h.1 hc1) hr, hR, by simp [hm], ?_⟩
        have hne : byteValue (fifo.buffer.getD fifo.getindex 0) ≠ -1 := by
          unfold byteValue
          omega
        rw [contents_Get h hc1]
        simp only [successfulGets, successfulPuts, if_pos hne, List.cons_append, List.map_cons, ho]
    | Put b =>
      by_cases hc : fifo.count ≥ fifo.size
      · obtain ⟨log, f1, hr, hR, hm, ho⟩ := run_order hC cs fifo h hcs
        have hv : call fifo (fifo_call.Put b) = some (fifo_ret.uint8 0, fifo) := by
          simp [call, FIFO_Put_full fifo b hc]
        exact ⟨_, f1, run_cons_of_call hv hr, hR, by simp [hm], by simpa [successfulGets, successfulPuts] using ho⟩
      · have hc1 : fifo.count < (C : Int) := by
          have := h.1.2.2.1
          omega
        have hc2 : fifo.count < (ringSize C : Int) := by
          rw [hrs]
          exact hc1
        obtain ⟨log, f1, hr, hR, hm, ho⟩ := run_order hC cs _ (Ring_Put b h hc2) hcs
        refine ⟨_, f1, run_cons_of_call (call_Put_ok b h.1 hc1) hr, hR, by simp [hm], ?_⟩
        rw [contents_Put b h hc2] at ho
        simp only [successfulGets, successfulPuts]
        rw [ho]
        simp

/-- Any sequence of calls without `FIFO_Clear` on a well-formed record runs to
the end, and the count moves by the number of successful `FIFO_Put`s minus the
number of successful `FIFO_Get`s. -/
theorem run_count {C : Nat} :
    ∀ (calls : List fifo_call) (fifo : fifo_type_s), Inv C fifo →
      (∀ c ∈ calls, c ≠ fifo_call.Clear) →
      ∃ log fifo1, run fifo calls = some (log, fifo1) ∧ Inv C fifo1 ∧
        log.map Prod.fst = calls ∧
        fifo1.count + ((successfulGets log).length : Int)
          = fifo.count + ((successfulPuts log).length : Int)
  | [], fifo, h, _ => ⟨[], fifo, rfl, h, rfl, by simp [successfulGets, successfulPuts]⟩
  | c :: cs, fifo, h, hnc => by
    have hcs : ∀ c ∈ cs, c ≠ fifo_call.Clear := fun c hc => hnc c (List.mem_cons_of_mem _ hc)
    cases c with
    | Clear => exact absurd rfl (hnc _ (List.mem_cons_self _ _))
    | Size =>
      obtain ⟨log, f1, hr, hR, hm, ho⟩ := run_count cs fifo h hcs
      exact ⟨_, f1, run_cons_of_call rfl hr, hR, by simp [hm], by simpa [successfulGets, successfulPuts] using ho⟩
    | Count =>
      obtain ⟨log, f1, hr, hR, hm, ho⟩ := run_count cs fifo h hcs
      exact ⟨_, f1, run_cons_of_call rfl hr, hR, by simp [hm], by simpa [successfulGets, successfulPuts] using ho⟩
    | Peek =>
      obtain ⟨log, f1, hr, hR, hm, ho⟩ := run_count cs fifo h hcs
      obtain ⟨v, hv⟩ := call_Peek_of_Inv h
      exact ⟨_, f1, run_cons_of_call hv hr, hR, by simp [hm], by simpa [successfulGets, successfulPuts] using ho⟩
    | Get =>
      by_cases hc : fifo.count ≤ 0
      · obtain ⟨log, f1, hr, hR, hm, ho⟩ := run_count cs fifo h hcs
        have hv : call fifo fifo_call.Get = some (fifo_ret.int16 (-1), fifo) := by
          simp [call, FIFO_Get_empty fifo hc]
        exact ⟨_, f1, run_cons_of_call hv hr, hR, by simp [hm], by simpa [successfulGets, successfulPuts] using ho⟩
      · have hc1 : 0 < fifo.count := by omega
        obtain ⟨log, f1, hr, hR, hm, ho⟩ := run_count cs _ (Inv_Get h hc1) hcs
        refine ⟨_, f1, run_cons_of_call (call_Get_ok h hc1) hr, hR, by simp [hm], ?_⟩
        have hne : byteValue (fifo.buffer.getD fifo.getindex 0) ≠ -1 := by
          unfold byteValue
          omega
        simp only [successfulGets, successfulPuts, if_pos hne, List.length_cons] at ho ⊢
        push_cast
        omega
    | Put b =>
      by_cases hc : fifo.count ≥ fifo.size
      · obtain ⟨log, f1, hr, hR, hm, ho⟩ := run_count cs fifo h hcs
        have hv : call fifo (fifo_call.Put b) = some (fifo_ret.uint8 0, fifo) := by
          simp [call, FIFO_Put_full fifo b hc]
        exact ⟨_, f1, run_cons_of_call hv hr, hR, by simp [hm], by simpa [successfulGets, successfulPuts] using ho⟩
      · have hc1 : fifo.count < (C : Int) := by
          have := h.2.2.1
          omega
        obtain ⟨log, f1, hr, hR, hm, ho⟩ := run_count cs _ (Inv_Put b h hc1) hcs
        refine ⟨_, f1, run_cons_of_call (call_Put_ok b h hc1) hr, hR, by simp [hm], ?_⟩
        simp only [successfulGets, successfulPuts] at ho ⊢
        simp only [ne_eq, one_ne_zero, not_false_eq_true, if_true, List.length_cons]
        push_cast
        omega

/-! ## Batches of `FIFO_Put` and of `FIFO_Get` -/

/-- On a well-formed record with room for all of them, a batch of `FIFO_Put`s
succeeds call by call. -/
theorem run_Put_batch_Inv {C : Nat} :
    ∀ (bs : List uint8_t) (fifo : fifo_type_s), Inv C fifo →
      fifo.count + (bs.length : Int) ≤ (C : Int) →
      ∃ fifo1, run fifo (bs.map fifo_call.Put)
          = some (bs.map (fun b => (fifo_call.Put b, fifo_ret.uint8 1)), fifo1) ∧
        Inv C fifo1 ∧ fifo1.count = fifo.count + (bs.length : Int)
  | [], fifo, h, _ => ⟨fifo, rfl, h, by simp⟩
  | b :: bs, fifo, h, hn => by
    simp only [List.length_cons, Nat.cast_add, Nat.cast_one] at hn
    have hc : fifo.count < (C : Int) := by omega
    obtain ⟨fifo1, hr, hI, hcnt⟩ := run_Put_batch_Inv bs _ (Inv_Put b h hc)
      (by show fifo.count + 1 + (bs.length : Int) ≤ (C : Int); omega)
    refine ⟨fifo1, ?_, hI, ?_⟩
    · simpa using run_cons_of_call (call_Put_ok b h hc) hr
    · rw [hcnt]
      show fifo.count + 1 + (bs.length : Int) = fifo.count + ((b :: bs).length : Int)
      simp only [List.length_cons, Nat.cast_add, Nat.cast_one]
      omega

/-- In ring discipline with room in the ring for all of them, a batch of
`FIFO_Put`s succeeds call by call and appends its bytes to the unread ones. -/
theorem run_Put_batch {C : Nat} :
    ∀ (bs : List uint8_t) (fifo : fifo_type_s), Ring C fifo →
      fifo.count + (bs.length : Int) ≤ (ringSize C : Int) →
      ∃ fifo1, run fifo (bs.map fifo_call.Put)
          = some (bs.map (fun b => (fifo_call.Put b, fifo_ret.uint8 1)), fifo1) ∧
        Ring C fifo1 ∧
        contents (ringSize C) fifo1 = contents (ringSize C) fifo ++ bs
  | [], fifo, h, _ => ⟨fifo, rfl, h, by simp⟩
  | b :: bs, fifo, h, hn => by
    simp only [List.length_cons, Nat.cast_add, Nat.cast_one] at hn
    have hle := ringSize_le C
    have hc2 : fifo.count < (ringSize C : Int) := by omega
    have hc : fifo.count < (C : Int) := by omega
    obtain ⟨fifo1, hr, hR, hcon⟩ := run_Put_batch bs _ (Ring_Put b h hc2)
      (by show fifo.count + 1 + (bs.length : Int) ≤ (ringSize C : Int); omega)
    refine ⟨fifo1, ?_, hR, ?_⟩
    · simpa using run_cons_of_call (call_Put_ok b h.1 hc) hr
    · rw [hcon, contents_Put b h hc2]
      simp

/-- In ring discipline, a batch of `FIFO_Get`s no longer than the unread bytes
returns them oldest first. -/
theorem run_Get_batch {C : Nat} :
    ∀ (bs rest : List uint8_t) (fifo : fifo_type_s), Ring C fifo →
      contents (ringSize C) fifo = bs ++ rest →
      ∃ fifo1, run fifo (List.replicate bs.length fifo_call.Get)
          = some (bs.map (fun b => (fifo_call.Get, fifo_ret.int16 (byteValue b))), fifo1) ∧
        Ring C fifo1 ∧ contents (ringSize C) fifo1 = rest
  | [], rest, fifo, h, hcon => ⟨fifo, rfl, h, by simpa using hcon⟩
  | b :: bs, rest, fifo, h, hcon => by
    have hlen := contents_length (ringSize C) fifo
    rw [hcon] at hlen
    simp only [List.cons_append, List.length_cons] at hlen
    have hc : 0 < fifo.count := by omega
    have hget := contents_Get h hc
    rw [hcon] at hget
    simp only [List.cons_append, List.cons.injEq] at hget
    obtain ⟨fifo1, hr, hR, hcon1⟩ := run_Get_batch bs rest _ (Ring_Get h hc) hget.2.symm
    refine ⟨fifo1, ?_, hR, hcon1⟩
    have h1 := run_cons_of_call (call_Get_ok h.1 hc) hr
    rw [← hget.1] at h1
    simpa [List.replicate_succ] using h1

theorem run_append_of {fifo fifo1 fifo2 : fifo_type_s} :
    ∀ {cs1 : List fifo_call} {cs2 : List fifo_call} {log1 log2 : List (fifo_call × fifo_ret)},
      run fifo cs1 = some (log1, fifo1) → run fifo1 cs2 = some (log2, fifo2) →
      run fifo (cs1 ++ cs2) = some (log1 ++ log2, fifo2) := by
  intro cs1
  induction cs1 generalizing fifo with
  | nil =>
    intro cs2 log1 log2 h1 h2
    simp only [run, Option.some.injEq, Prod.mk.injEq] at h1
    obtain ⟨rfl, rfl⟩ := h1
    simpa using h2
  | cons c cs ih =>
    intro cs2 log1 log2 h1 h2
    simp only [run] at h1
    cases hc : call fifo c with
    | none => simp [hc] at h1
    | some p =>
      obtain ⟨r, f⟩ := p
      simp only [hc] at h1
      cases hr : run f cs with
      | none => simp [hr] at h1
      | some q =>
        obtain ⟨l, f3⟩ := q
        simp only [hr, Option.some.injEq, Prod.mk.injEq] at h1
        obtain ⟨rfl, rfl⟩ := h1
        have := ih hr h2
        simpa using run_cons_of_call hc this

/-! ## The statements about the FIFO -/

set_option maxRecDepth 100000 in
/-- C1, where the code breaks it: on a new FIFO of capacity 257 the 257 calls
`FIFO_Put` of `overrunBytes` all return success, the first of them storing 7, and
the `FIFO_Get` that follows returns 9, the byte of the last `FIFO_Put`, where
strict FIFO order requires 7: the 8-bit write index is back at 0 after 256
calls and the 257th overwrites the oldest unread byte. -/
theorem C1_unread_byte_overwritten :
    Fresh 257 (FIFO_New 257) ∧ (∀ c ∈ overrunCalls, c ≠ fifo_call.Clear) ∧
    (run (FIFO_New 257) overrunCalls).map
        (fun r => ((successfulPuts r.1).length, (successfulPuts r.1).head?, successfulGets r.1))
      = some (257, some 7, [9]) :=
  ⟨Or.inl rfl, by decide, by decide⟩

/-- Strict FIFO order for every capacity `1 ≤ C ≤ 256`, where the 8-bit
indices reach every slot.  On a new or
cleared FIFO every sequence of calls of `FIFO_Put`, `FIFO_Get`, `FIFO_Peek`
(and `FIFO_Count`, `FIFO_Size`) runs to the end, the values of the successful
`FIFO_Get`s followed by the unread bytes are the bytes of the successful
`FIFO_Put`s in order, so the `j`-th successful `FIFO_Get` returns the byte of the
`j`-th successful `FIFO_Put`; `C` puts, `C` gets, `C` puts, `C` gets all succeed
in order; and the scenario on capacity 4 returns
success x4, failure, 10, success, 20, 30, 40, 50, -1. -/
theorem strict_fifo_le_256 (C : Nat) (hC : 0 < C) (hC256 : C ≤ 256)
    (fifo : fifo_type_s) (hfresh : Fresh C fifo)
    (calls : List fifo_call) (hcalls : ∀ c ∈ calls, c ≠ fifo_call.Clear) :
    (∃ log fifo1, run fifo calls = some (log, fifo1) ∧ log.map Prod.fst = calls ∧
      successfulGets log ++ (contents C fifo1).map byteValue
        = (successfulPuts log).map byteValue ∧
      ∀ (j : Nat) (v : Int), (successfulGets log)[j]? = some v →
        ∃ b : uint8_t, (successfulPuts log)[j]? = some b ∧ v = ((b.val : Nat) : Int)) ∧
    (∀ bs1 bs2 : List uint8_t, bs1.length = C → bs2.length = C →
      ∃ fifo1, run fifo (bs1.map fifo_call.Put ++ (List.replicate C fifo_call.Get ++
          (bs2.map fifo_call.Put ++ List.replicate C fifo_call.Get)))
        = some (bs1.map (fun b => (fifo_call.Put b, fifo_ret.uint8 1)) ++
            (bs1.map (fun b => (fifo_call.Get, fifo_ret.int16 ((b.val : Nat) : Int))) ++
            (bs2.map (fun b => (fifo_call.Put b, fifo_ret.uint8 1)) ++
             bs2.map (fun b => (fifo_call.Get, fifo_ret.int16 ((b.val : Nat) : Int))))),
          fifo1)) ∧
    (run (FIFO_New 4) scenario).map (fun r => returns r.1)
      = some [.uint8 1, .uint8 1, .uint8 1, .uint8 1, .uint8 0, .int16 10, .uint8 1,
          .int16 20, .int16 30, .int16 40, .int16 50, .int16 (-1)] := by
  have hC2 : C ≤ 32767 := by omega
  have hrs := ringSize_of_le hC256
  obtain ⟨hR, hcon⟩ := Ring_of_Fresh hC hC2 hfresh
  refine ⟨?_, ?_, by decide⟩
  · obtain ⟨log, fifo1, hrun, _, hm, ho⟩ := run_order hC256 calls fifo hR hcalls
    rw [hcon, hrs] at ho
    simp only [List.nil_append] at ho
    refine ⟨log, fifo1, hrun, hm, ho, ?_⟩
    intro j v hj
    have hlt : j < (successfulGets log).length := (List.getElem?_eq_some_iff.mp hj).1
    have h1 : (successfulGets log ++ (contents C fifo1).map byteValue)[j]? = some v := by
      rw [List.getElem?_append_left hlt]
      exact hj
    rw [ho, List.getElem?_map] at h1
    cases hb : (successfulPuts log)[j]? with
    | none => simp [hb] at h1
    | some b =>
      refine ⟨b, rfl, ?_⟩
      simp only [hb, Option.map_some', Option.some.injEq] at h1
      exact h1.symm
  · intro bs1 bs2 h1 h2
    have hz : fifo.count = 0 := by
      have := contents_length (ringSize C) fifo
      rw [hcon] at this
      have h0 := hR.1.2.2.2.2.2.2.1
      simp only [List.length_nil] at this
      omega
    obtain ⟨f1, hr1, hR1, hc1⟩ := run_Put_batch bs1 fifo hR (by rw [hz, hrs, h1]; simp)
    rw [hcon, List.nil_append] at hc1
    obtain ⟨f2, hr2, hR2, hc2⟩ := run_Get_batch bs1 [] f1 hR1 (by simpa using hc1)
    have hz2 : f2.count = 0 := by
      have := contents_length (ringSize C) f2
      rw [hc2] at this
      have h0 := hR2.1.2.2.2.2.2.2.1
      simp only [List.length_nil] at this
      omega
    obtain ⟨f3, hr3, hR3, hc3⟩ := run_Put_batch bs2 f2 hR2 (by rw [hz2, hrs, h2]; simp)
    rw [hc2, List.nil_append] at hc3
    obtain ⟨f4, hr4, _, _⟩ := run_Get_batch bs2 [] f3 hR3 (by simpa using hc3)
    rw [h1] at hr2
    rw [h2] at hr4
    exact ⟨f4, run_append_of hr1 (run_append_of hr2 (run_append_of hr3 hr4))⟩

/-- Strict FIFO order at capacity 4 on the scenario of the specification. -/
theorem strict_fifo_le_256_example :
    (0 < 4 ∧ 4 ≤ 256 ∧ Fresh 4 (FIFO_New 4) ∧ ∀ c ∈ scenario, c ≠ fifo_call.Clear) ∧
    ∃ log fifo1, run (FIFO_New 4) scenario = some (log, fifo1) ∧
      log.map Prod.fst = scenario ∧
      successfulGets log ++ (contents 4 fifo1).map byteValue
        = (successfulPuts log).map byteValue ∧
      ∀ (j : Nat) (v : Int), (successfulGets log)[j]? = some v →
        ∃ b : uint8_t, (successfulPuts log)[j]? = some b ∧ v = ((b.val : Nat) : Int) :=
  ⟨⟨by decide, by decide, Or.inl rfl, by decide⟩,
    (strict_fifo_le_256 4 (by decide) (by decide) (FIFO_New 4) (Or.inl rfl) scenario
      (by decide)).1⟩

set_option maxRecDepth 100000 in
/-- C2, where the code breaks it: on a new FIFO of capacity 300 the `N = 257`
calls `FIFO_Put` of `batchBytes` (1, 2, ..., 2, 3) all return success, and the
first two of the following `FIFO_Get`s return 3 and 2, where the order of the
`FIFO_Put`s requires 1 and 2: the 257th `FIFO_Put` has overwritten slot 0. -/
theorem C2_batch_out_of_order :
    batchBytes.length = 257 ∧ 257 ≤ 300 ∧ 300 ≤ 32767 ∧ batchBytes.take 2 = [1, 2] ∧
    (run (FIFO_New 300) (batchBytes.map fifo_call.Put ++ [fifo_call.Get, fifo_call.Get])).map
        (fun r => ((successfulPuts r.1).length, (returns r.1).drop 257))
      = some (257, [.int16 3, .int16 2]) :=
  ⟨by decide, by decide, by decide, by decide, by decide⟩

/-- Batch order for batches that fit the 8-bit indices: for every `N ≤ 256`, every capacity `C ≥ N` (`C > 0`, fitting the
`size` field) and all bytes `b0..b(N-1)`, on a new or cleared FIFO the `N` calls
`FIFO_Put` all return success and the `N` following calls `FIFO_Get` return
`b0, ..., b(N-1)` in that order. -/
theorem batch_order_le_256 (C : Nat) (hC : 0 < C) (hC2 : C ≤ 32767)
    (bs : List uint8_t) (hN : bs.length ≤ C) (hN256 : bs.length ≤ 256)
    (fifo : fifo_type_s) (hfresh : Fresh C fifo) :
    ∃ fifo1 fifo2,
      run fifo (bs.map fifo_call.Put)
        = some (bs.map (fun b => (fifo_call.Put b, fifo_ret.uint8 1)), fifo1) ∧
      run fifo1 (List.replicate bs.length fifo_call.Get)
        = some (bs.map (fun b => (fifo_call.Get, fifo_ret.int16 ((b.val : Nat) : Int))), fifo2) := by
  obtain ⟨hR, hcon⟩ := Ring_of_Fresh hC hC2 hfresh
  obtain ⟨_, hz, _, _⟩ := Inv_of_Fresh hC hC2 hfresh
  have hroom : fifo.count + (bs.length : Int) ≤ (ringSize C : Int) := by
    rw [hz]
    unfold ringSize
    omega
  obtain ⟨f1, hr1, hR1, hc1⟩ := run_Put_batch bs fifo hR hroom
  rw [hcon, List.nil_append] at hc1
  obtain ⟨f2, hr2, _, _⟩ := run_Get_batch bs [] f1 hR1 (by simpa using hc1)
  exact ⟨f1, f2, hr1, hr2⟩

/-- Batch order at capacity 4 with the bytes 10, 20, 30. -/
theorem batch_order_le_256_example :
    (0 < 4 ∧ 4 ≤ 32767 ∧ [(10 : uint8_t), 20, 30].length ≤ 4 ∧
      [(10 : uint8_t), 20, 30].length ≤ 256 ∧ Fresh 4 (FIFO_New 4)) ∧
    ∃ fifo1 fifo2,
      run (FIFO_New 4) [.Put 10, .Put 20, .Put 30]
        = some ([(.Put 10, .uint8 1), (.Put 20, .uint8 1), (.Put 30, .uint8 1)], fifo1) ∧
      run fifo1 [.Get, .Get, .Get]
        = some ([(.Get, .int16 10), (.Get, .int16 20), (.Get, .int16 30)], fifo2) :=
  ⟨⟨by decide, by decide, by decide, by decide, Or.inl rfl⟩,
    batch_order_le_256 4 (by decide) (by decide) [10, 20, 30] (by decide) (by decide)
      (FIFO_New 4) (Or.inl rfl)⟩

/-- C3: in every state with `count >= size` the call `FIFO_Put` returns 0 and
leaves the whole record (buffer, getindex, putindex, count) as it was; and for
every capacity `C > 0` (fitting the `size` field), on an empty well-formed FIFO,
a new or cleared one in particular, the first `C` calls `FIFO_Put` return
success, after which every further `FIFO_Put` returns 0, leaves the record as it
was, and `FIFO_Count` is `C`. -/
theorem C3_capacity_bound :
    (∀ (fifo : fifo_type_s) (putdata : uint8_t), fifo.count ≥ fifo.size →
      FIFO_Put fifo putdata = some (0, fifo)) ∧
    (∀ (C : Nat), 0 < C → C ≤ 32767 → ∀ (fifo : fifo_type_s),
      (Fresh C fifo ∨ (Inv C fifo ∧ fifo.count = 0)) →
      ∀ (bs : List uint8_t), bs.length = C → ∀ (putdata : uint8_t),
      ∃ fifo1, run fifo (bs.map fifo_call.Put)
          = some (bs.map (fun b => (fifo_call.Put b, fifo_ret.uint8 1)), fifo1) ∧
        FIFO_Put fifo1 putdata = some (0, fifo1) ∧ FIFO_Count fifo1 = C) := by
  refine ⟨FIFO_Put_full, ?_⟩
  intro C hC hC2 fifo hstart bs hlen putdata
  have hIz : Inv C fifo ∧ fifo.count = 0 := by
    rcases hstart with hfresh | h
    · exact ⟨(Inv_of_Fresh hC hC2 hfresh).1, (Inv_of_Fresh hC hC2 hfresh).2.1⟩
    · exact h
  obtain ⟨hI, hz⟩ := hIz
  obtain ⟨f1, hr1, hI1, hc1⟩ := run_Put_batch_Inv bs fifo hI (by rw [hz, hlen]; simp)
  rw [hz, hlen, zero_add] at hc1
  refine ⟨f1, hr1, FIFO_Put_full f1 putdata ?_, ?_⟩
  · rw [hc1, hI1.2.2.1]
  · unfold FIFO_Count uint16_t_wrap
    rw [hc1]
    omega

/-- C3 on a full FIFO of capacity 2, and on a new FIFO of capacity 2. -/
theorem C3_capacity_bound_witness :
    FIFO_Put { buffer := [1, 2], size := 2, getindex := 0, putindex := 0, count := 2 } 9
      = some (0, { buffer := [1, 2], size := 2, getindex := 0, putindex := 0, count := 2 }) ∧
    ∃ fifo1, run (FIFO_New 2) [.Put 1, .Put 2]
        = some ([(.Put 1, .uint8 1), (.Put 2, .uint8 1)], fifo1) ∧
      FIFO_Put fifo1 9 = some (0, fifo1) ∧ FIFO_Count fifo1 = 2 :=
  ⟨C3_capacity_bound.1 _ 9 (by decide),
    C3_capacity_bound.2 2 (by decide) (by decide) (FIFO_New 2) (Or.inl (Or.inl rfl))
      [1, 2] rfl 9⟩

/-- C4: in every state with `count == 0` the calls `FIFO_Get` and `FIFO_Peek`
return -1 and leave the record as it was, and `FIFO_Count` returns 0; a record
made by `FIFO_New` and a record just after `FIFO_Clear` are such states. -/
theorem C4_empty_bound :
    (∀ (fifo : fifo_type_s), fifo.count = 0 →
      FIFO_Get fifo = some (-1, fifo) ∧ FIFO_Peek fifo = some (-1, fifo) ∧
      FIFO_Count fifo = 0) ∧
    (∀ (size : Nat), (FIFO_New size).count = 0) ∧
    (∀ (fifo : fifo_type_s), (FIFO_Clear fifo).count = 0) := by
  refine ⟨?_, fun _ => rfl, fun _ => rfl⟩
  intro fifo h
  refine ⟨FIFO_Get_empty fifo (by omega), FIFO_Peek_empty fifo (by omega), ?_⟩
  unfold FIFO_Count uint16_t_wrap
  rw [h]
  rfl

/-- C4 on a new FIFO of capacity 4. -/
theorem C4_empty_bound_witness :
    (FIFO_New 4).count = 0 ∧
    FIFO_Get (FIFO_New 4) = some (-1, FIFO_New 4) ∧
    FIFO_Peek (FIFO_New 4) = some (-1, FIFO_New 4) ∧
    FIFO_Count (FIFO_New 4) = 0 :=
  ⟨rfl, C4_empty_bound.1 (FIFO_New 4) rfl⟩

/-- C5: in every state with `count > 0` and a byte `v` stored at the read index,
`FIFO_Get` and `FIFO_Peek` return the value of `v`, which lies in `0..255` and is
not -1 (255 for the byte 0xFF); and in every state with `count >= 0` each of
`FIFO_Get`, `FIFO_Peek` returns -1 if and only if `count == 0`. -/
theorem C5_empty_signal :
    (∀ (fifo : fifo_type_s) (v : uint8_t), 0 < fifo.count →
      fifo.buffer[fifo.getindex]? = some v →
      (∃ fifo1, FIFO_Get fifo = some (((v.val : Nat) : Int), fifo1)) ∧
      FIFO_Peek fifo = some (((v.val : Nat) : Int), fifo) ∧
      0 ≤ ((v.val : Nat) : Int) ∧ ((v.val : Nat) : Int) ≤ 255 ∧
      ((v.val : Nat) : Int) ≠ -1) ∧
    (((0xFF : uint8_t).val : Nat) : Int) = 255 ∧
    (∀ (fifo : fifo_type_s), 0 ≤ fifo.count →
      ((∃ fifo1, FIFO_Get fifo = some (-1, fifo1)) ↔ fifo.count = 0) ∧
      ((∃ fifo1, FIFO_Peek fifo = some (-1, fifo1)) ↔ fifo.count = 0)) := by
  refine ⟨?_, by decide, ?_⟩
  · intro fifo v hc hv
    have hv2 := v.isLt
    refine ⟨⟨{ fifo with
        getindex := next_index fifo.getindex fifo.size
        count := int16_t_wrap (fifo.count - 1) }, ?_⟩, ?_, by omega, by omega, by omega⟩
    · rw [FIFO_Get_eq]
      rw [if_neg (by omega), hv]
    · unfold FIFO_Peek
      rw [if_neg (by omega), hv]
  · intro fifo h0
    constructor
    · constructor
      · rintro ⟨fifo1, h⟩
        by_contra hne
        rw [FIFO_Get_eq] at h
        rw [if_neg (by omega)] at h
        cases hb : fifo.buffer[fifo.getindex]? with
        | none => simp [hb] at h
        | some b =>
          simp only [hb, Option.some.injEq, Prod.mk.injEq] at h
          omega
      · intro h
        exact ⟨fifo, FIFO_Get_empty fifo (by omega)⟩
    · constructor
      · rintro ⟨fifo1, h⟩
        by_contra hne
        unfold FIFO_Peek at h
        rw [if_neg (by omega)] at h
        cases hb : fifo.buffer[fifo.getindex]? with
        | none => simp [hb] at h
        | some b =>
          simp only [hb, Option.some.injEq, Prod.mk.injEq] at h
          omega
      · intro h
        exact ⟨fifo, FIFO_Peek_empty fifo (by omega)⟩

/-- C5 on a FIFO of capacity 2 holding the single byte 0xFF. -/
theorem C5_empty_signal_witness :
    (∃ fifo1, FIFO_Get { buffer := [0xFF, 0], size := 2, getindex := 0, putindex := 1, count := 1 }
        = some (255, fifo1)) ∧
    FIFO_Peek { buffer := [0xFF, 0], size := 2, getindex := 0, putindex := 1, count := 1 }
      = some (255, { buffer := [0xFF, 0], size := 2, getindex := 0, putindex := 1, count := 1 }) :=
  ⟨(C5_empty_signal.1 { buffer := [0xFF, 0], size := 2, getindex := 0, putindex := 1, count := 1 }
      0xFF (by decide) (by decide)).1,
   (C5_empty_signal.1 { buffer := [0xFF, 0], size := 2, getindex := 0, putindex := 1, count := 1 }
      0xFF (by decide) (by decide)).2.1⟩

set_option maxRecDepth 100000 in
/-- C6, where the code breaks it: with capacity 257, write index 255 and count
0 (the state after 255 calls `FIFO_Put` and 255 calls `FIFO_Get` on a new FIFO)
the call `FIFO_Put` succeeds and leaves the write index at 0, where the
successor modulo the capacity, `(255 + 1) mod 257`, is 256: the index wraps
although the slot written was not the last one. -/
theorem C6_putindex_wraps_early :
    (0 < 257 ∧ 257 ≤ 32767 ∧ emptyAt255.size = 257 ∧ emptyAt255.buffer.length = 257 ∧
      emptyAt255.putindex < 257 ∧ emptyAt255.count < 257) ∧
    (run (FIFO_New 257) (List.replicate 255 (fifo_call.Put 0) ++
        List.replicate 255 fifo_call.Get)).map (fun r => r.2) = some emptyAt255 ∧
    (FIFO_Put emptyAt255 5).map (fun r => (r.1, r.2.putindex)) = some (1, 0) ∧
    (emptyAt255.putindex + 1) % 257 = 256 :=
  ⟨by decide, by decide, by decide, by decide⟩

/-- Postcondition of a successful `FIFO_Put` where the 8-bit index reaches
every slot: for every capacity `1 ≤ C ≤ 256` and every state of a FIFO of
that capacity with `putindex` in `[0, C)` and `count < C`, the call `FIFO_Put(b)`
returns a non-zero value, the new buffer is the old one with slot `putindex`
set to `b` and every other slot as it was, the new `putindex` is
`(putindex + 1) mod C`, the new `count` is `count + 1`, and `getindex` and `size`
are as they were. -/
theorem put_success_le_256 (C : Nat) (hC : 0 < C) (hC256 : C ≤ 256)
    (fifo : fifo_type_s) (putdata : uint8_t)
    (hsize : fifo.size = (C : Int)) (hbuf : fifo.buffer.length = C)
    (hp : fifo.putindex < C) (hc : fifo.count < (C : Int)) (hmin : -32768 ≤ fifo.count) :
    ∃ r fifo1, FIFO_Put fifo putdata = some (r, fifo1) ∧ r ≠ 0 ∧
      fifo1.buffer = fifo.buffer.set fifo.putindex putdata ∧
      fifo1.buffer[fifo.putindex]? = some putdata ∧
      (∀ i : Nat, i ≠ fifo.putindex → fifo1.buffer[i]? = fifo.buffer[i]?) ∧
      fifo1.putindex = (fifo.putindex + 1) % C ∧
      fifo1.count = fifo.count + 1 ∧
      fifo1.getindex = fifo.getindex ∧ fifo1.size = fifo.size := by
  have hrs := ringSize_of_le hC256
  have hpl : fifo.putindex < fifo.buffer.length := by omega
  refine ⟨1, { fifo with
      buffer := fifo.buffer.set fifo.putindex putdata
      putindex := next_index fifo.putindex fifo.size
      count := int16_t_wrap (fifo.count + 1) }, ?_, by decide, rfl, ?_, ?_, ?_, ?_, rfl, rfl⟩
  · rw [FIFO_Put_eq]
    rw [if_neg (by omega), if_pos hpl]
  · exact List.getElem?_set_self hpl
  · intro i hi
    exact List.getElem?_set_ne (Ne.symm hi)
  · show next_index fifo.putindex fifo.size = (fifo.putindex + 1) % C
    rw [hsize, next_index_eq hC (by omega), hrs]
  · exact int16_t_wrap_id (by omega) (by omega)

/-- A successful `FIFO_Put` on a FIFO of capacity 2 whose write index is on the
last slot. -/
theorem put_success_le_256_example :
    (0 < 2 ∧ 2 ≤ 256) ∧
    ∃ r fifo1,
      FIFO_Put { buffer := [7, 0], size := 2, getindex := 0, putindex := 1, count := 1 } 8
        = some (r, fifo1) ∧ r ≠ 0 ∧
      fifo1.buffer = [7, 8] ∧ fifo1.putindex = 0 ∧ fifo1.count = 2 ∧
      fifo1.getindex = 0 ∧ fifo1.size = 2 := by
  obtain ⟨r, fifo1, h1, h2, h3, _, _, h6, h7, h8, h9⟩ :=
    put_success_le_256 2 (by decide) (by decide)
      { buffer := [7, 0], size := 2, getindex := 0, putindex := 1, count := 1 } 8
      rfl rfl (by decide) (by decide) (by decide)
  exact ⟨⟨by decide, by decide⟩, r, fifo1, h1, h2, h3, h6, h7, h8, h9⟩

set_option maxRecDepth 100000 in
/-- C7, where the code breaks it: with capacity 257, read index 255 and count 1
(the state after 256 calls `FIFO_Put` and 255 calls `FIFO_Get` on a new FIFO)
the call `FIFO_Get` returns the byte and leaves the read index at 0, where the
successor modulo the capacity, `(255 + 1) mod 257`, is 256: the index wraps
although the slot read was not the last one. -/
theorem C7_getindex_wraps_early :
    (0 < 257 ∧ 257 ≤ 32767 ∧ oneAt255.size = 257 ∧ oneAt255.buffer.length = 257 ∧
      oneAt255.getindex < 257 ∧ 0 < oneAt255.count) ∧
    (run (FIFO_New 257) (List.replicate 256 (fifo_call.Put 0) ++
        List.replicate 255 fifo_call.Get)).map (fun r => r.2) = some oneAt255 ∧
    (FIFO_Get oneAt255).map (fun r => (r.1, r.2.getindex)) = some (0, 0) ∧
    (oneAt255.getindex + 1) % 257 = 256 :=
  ⟨by decide, by decide, by decide, by decide⟩

/-- Postcondition of a successful `FIFO_Get` where the 8-bit index reaches
every slot: for every capacity `1 ≤ C ≤ 256` and every state of a FIFO of
that capacity with `getindex` in `[0, C)` and `count > 0`, the call `FIFO_Get`
returns the byte stored at slot `getindex`, the new `getindex` is
`(getindex + 1) mod C`, the new `count` is `count - 1`, and the buffer,
`putindex` and `size` are as they were. -/
theorem get_success_le_256 (C : Nat) (hC : 0 < C) (hC256 : C ≤ 256)
    (fifo : fifo_type_s)
    (hsize : fifo.size = (C : Int)) (hbuf : fifo.buffer.length = C)
    (hg : fifo.getindex < C) (hc : 0 < fifo.count) (hmax : fifo.count ≤ 32767) :
    ∃ (v : uint8_t) (fifo1 : fifo_type_s), fifo.buffer[fifo.getindex]? = some v ∧
      FIFO_Get fifo = some (((v.val : Nat) : Int), fifo1) ∧
      fifo1.getindex = (fifo.getindex + 1) % C ∧
      fifo1.count = fifo.count - 1 ∧
      fifo1.buffer = fifo.buffer ∧ fifo1.putindex = fifo.putindex ∧
      fifo1.size = fifo.size := by
  have hrs := ringSize_of_le hC256
  have hgl : fifo.getindex < fifo.buffer.length := by omega
  have hv : fifo.buffer[fifo.getindex]? = some (fifo.buffer[fifo.getindex]) :=
    List.getElem?_eq_getElem hgl
  refine ⟨fifo.buffer[fifo.getindex], { fifo with
      getindex := next_index fifo.getindex fifo.size
      count := int16_t_wrap (fifo.count - 1) }, hv, ?_, ?_, ?_, rfl, rfl, rfl⟩
  · rw [FIFO_Get_eq]
    rw [if_neg (by omega), hv]
  · show next_index fifo.getindex fifo.size = (fifo.getindex + 1) % C
    rw [hsize, next_index_eq hC (by omega), hrs]
  · exact int16_t_wrap_id (by omega) (by omega)

/-- A successful `FIFO_Get` on a FIFO of capacity 2 whose read index is on the
last slot. -/
theorem get_success_le_256_example :
    (0 < 2 ∧ 2 ≤ 256) ∧
    ∃ (v : uint8_t) (fifo1 : fifo_type_s), [(7 : uint8_t), 8][1]? = some v ∧
      FIFO_Get { buffer := [7, 8], size := 2, getindex := 1, putindex := 0, count := 1 }
        = some (((v.val : Nat) : Int), fifo1) ∧
      fifo1.getindex = 0 ∧ fifo1.count = 0 ∧
      fifo1.buffer = [7, 8] ∧ fifo1.putindex = 0 ∧ fifo1.size = 2 :=
  ⟨⟨by decide, by decide⟩,
    get_success_le_256 2 (by decide) (by decide)
      { buffer := [7, 8], size := 2, getindex := 1, putindex := 0, count := 1 }
      rfl rfl (by decide) (by decide) (by decide)⟩

theorem run_Peek_repeat {fifo : fifo_type_s} {v : Int}
    (h : FIFO_Peek fifo = some (v, fifo)) :
    ∀ n : Nat, run fifo (List.replicate n fifo_call.Peek)
      = some (List.replicate n (fifo_call.Peek, fifo_ret.int16 v), fifo)
  | 0 => rfl
  | n + 1 => by
    have hcall : call fifo fifo_call.Peek = some (fifo_ret.int16 v, fifo) := by
      simp [call, h]
    simpa [List.replicate_succ] using run_cons_of_call hcall (run_Peek_repeat h n)

/-- C8: in every state, `FIFO_Peek` fails to return only when it reads outside
of the storage (`count > 0` with the read index beyond the buffer); whenever it
returns, the record (count, getindex, putindex, size, buffer) is as it was, so
`n` consecutive calls `FIFO_Peek` all return that same value, and a `FIFO_Get`
issued next returns that same value too: -1 with the record as it was when
empty, the byte when non-empty, and then the read index has advanced and the
count is one less. -/
theorem C8_peek_idempotent (fifo : fifo_type_s) :
    (FIFO_Peek fifo = none ↔ (0 < fifo.count ∧ fifo.buffer.length ≤ fifo.getindex)) ∧
    ∀ (v : Int) (fifo1 : fifo_type_s), FIFO_Peek fifo = some (v, fifo1) →
      fifo1 = fifo ∧
      (∀ n : Nat, run fifo (List.replicate n fifo_call.Peek)
        = some (List.replicate n (fifo_call.Peek, fifo_ret.int16 v), fifo)) ∧
      ∃ fifo2, FIFO_Get fifo = some (v, fifo2) ∧
        (fifo.count ≤ 0 → v = -1 ∧ fifo2 = fifo) ∧
        (0 < fifo.count → v ≠ -1 ∧
          fifo2.getindex = next_index fifo.getindex fifo.size ∧
          (fifo.count ≤ 32767 → fifo2.count = fifo.count - 1) ∧
          fifo2.buffer = fifo.buffer ∧ fifo2.putindex = fifo.putindex ∧
          fifo2.size = fifo.size) := by
  constructor
  · unfold FIFO_Peek
    by_cases hc : fifo.count ≤ 0
    · rw [if_pos hc]
      simp
      omega
    · rw [if_neg hc]
      cases hb : fifo.buffer[fifo.getindex]? with
      | none =>
        simp only [true_iff]
        exact ⟨by omega, List.getElem?_eq_none_iff.mp hb⟩
      | some b =>
        simp only [false_iff, not_and, not_le, reduceCtorEq]
        intro _
        exact (List.getElem?_eq_some_iff.mp hb).1
  · intro v fifo1 h
    by_cases hc : fifo.count ≤ 0
    · have hp := FIFO_Peek_empty fifo hc
      rw [hp] at h
      simp only [Option.some.injEq, Prod.mk.injEq] at h
      obtain ⟨rfl, rfl⟩ := h
      refine ⟨rfl, run_Peek_repeat hp, fifo, FIFO_Get_empty fifo hc, fun _ => ⟨rfl, rfl⟩, ?_⟩
      intro h0
      omega
    · unfold FIFO_Peek at h
      rw [if_neg hc] at h
      cases hb : fifo.buffer[fifo.getindex]? with
      | none => simp [hb] at h
      | some b =>
        simp only [hb, Option.some.injEq, Prod.mk.injEq] at h
        obtain ⟨rfl, rfl⟩ := h
        have hp : FIFO_Peek fifo = some (((b.val : Nat) : Int), fifo) := by
          unfold FIFO_Peek
          rw [if_neg hc, hb]
        refine ⟨rfl, run_Peek_repeat hp,
          { fifo with
            getindex := next_index fifo.getindex fifo.size
            count := int16_t_wrap (fifo.count - 1) }, ?_, ?_, ?_⟩
        · rw [FIFO_Get_eq]
          rw [if_neg hc, hb]
        · intro h0
          exact absurd h0 hc
        · intro _
          have hb2 := b.isLt
          refine ⟨by omega, rfl, ?_, rfl, rfl, rfl⟩
          intro hmax
          exact int16_t_wrap_id (by omega) (by omega)

/-- C8 on a FIFO of capacity 2 holding the bytes 7 and 8. -/
theorem C8_peek_idempotent_witness :
    FIFO_Peek { buffer := [7, 8], size := 2, getindex := 0, putindex := 0, count := 2 }
      = some (7, { buffer := [7, 8], size := 2, getindex := 0, putindex := 0, count := 2 }) ∧
    run { buffer := [7, 8], size := 2, getindex := 0, putindex := 0, count := 2 }
        (List.replicate 3 fifo_call.Peek)
      = some (List.replicate 3 (fifo_call.Peek, fifo_ret.int16 7),
          { buffer := [7, 8], size := 2, getindex := 0, putindex := 0, count := 2 }) :=
  ⟨by decide,
    ((C8_peek_idempotent
        { buffer := [7, 8], size := 2, getindex := 0, putindex := 0, count := 2 }).2
      7 { buffer := [7, 8], size := 2, getindex := 0, putindex := 0, count := 2 }
      (by decide)).2.1 3⟩

/-- C9: for every capacity `C > 0` (fitting the `size` field), on a new or cleared
FIFO every sequence of calls of `FIFO_Put`, `FIFO_Get`, `FIFO_Peek`, `FIFO_Count`
(and `FIFO_Size`) runs to the end; with `k` the number of `FIFO_Put`s that
returned success and `m` the number of `FIFO_Get`s that returned a byte,
`k ≥ m`, the count is `k - m`, and `FIFO_Count` called next returns `k - m`. -/
theorem C9_count_accuracy (C : Nat) (hC : 0 < C) (hC2 : C ≤ 32767)
    (fifo : fifo_type_s) (hfresh : Fresh C fifo)
    (calls : List fifo_call) (hcalls : ∀ c ∈ calls, c ≠ fifo_call.Clear) :
    ∃ log fifo1, run fifo calls = some (log, fifo1) ∧ log.map Prod.fst = calls ∧
      (successfulGets log).length ≤ (successfulPuts log).length ∧
      FIFO_Count fifo1 = (successfulPuts log).length - (successfulGets log).length ∧
      run fifo (calls ++ [fifo_call.Count])
        = some (log ++ [(fifo_call.Count,
            fifo_ret.uint16 ((successfulPuts log).length - (successfulGets log).length))],
          fifo1) := by
  obtain ⟨hI, hz, _, _⟩ := Inv_of_Fresh hC hC2 hfresh
  obtain ⟨log, fifo1, hrun, hI1, hm, hcnt⟩ := run_count calls fifo hI hcalls
  rw [hz, zero_add] at hcnt
  obtain ⟨_, _, _, _, _, _, h0, h1⟩ := hI1
  have hcount : FIFO_Count fifo1
      = (successfulPuts log).length - (successfulGets log).length := by
    unfold FIFO_Count uint16_t_wrap
    omega
  refine ⟨log, fifo1, hrun, hm, by omega, hcount, ?_⟩
  have hlast : run fifo1 [fifo_call.Count]
      = some ([(fifo_call.Count, fifo_ret.uint16 (FIFO_Count fifo1))], fifo1) := rfl
  rw [hcount] at hlast
  exact run_append_of hrun hlast

/-- C9 at capacity 4 on the scenario of the specification. -/
theorem C9_count_accuracy_witness :
    (0 < 4 ∧ 4 ≤ 32767 ∧ Fresh 4 (FIFO_New 4) ∧ ∀ c ∈ scenario, c ≠ fifo_call.Clear) ∧
    ∃ log fifo1, run (FIFO_New 4) scenario = some (log, fifo1) ∧
      log.map Prod.fst = scenario ∧
      (successfulGets log).length ≤ (successfulPuts log).length ∧
      FIFO_Count fifo1 = (successfulPuts log).length - (successfulGets log).length ∧
      run (FIFO_New 4) (scenario ++ [fifo_call.Count])
        = some (log ++ [(fifo_call.Count,
            fifo_ret.uint16 ((successfulPuts log).length - (successfulGets log).length))],
          fifo1) :=
  ⟨⟨by decide, by decide, Or.inl rfl, by decide⟩,
    C9_count_accuracy 4 (by decide) (by decide) (FIFO_New 4) (Or.inl rfl) scenario
      (by decide)⟩

/-- C10: for every state of a FIFO of capacity `C > 0` (any count, any indices,
any buffer contents), after `FIFO_Clear` the fields count, getindex and
putindex are 0, `FIFO_Count` returns 0, `FIFO_Get` and `FIFO_Peek` return -1, and
for every byte `b` a `FIFO_Put(b)` issued next returns success and the `FIFO_Get`
right after it returns `b`. -/
theorem C10_clear_resets (C : Nat) (hC : 0 < C) (fifo : fifo_type_s)
    (hsize : fifo.size = (C : Int)) (hbuf : fifo.buffer.length = C) (b : uint8_t) :
    (FIFO_Clear fifo).count = 0 ∧ (FIFO_Clear fifo).getindex = 0 ∧
    (FIFO_Clear fifo).putindex = 0 ∧ FIFO_Count (FIFO_Clear fifo) = 0 ∧
    FIFO_Get (FIFO_Clear fifo) = some (-1, FIFO_Clear fifo) ∧
    FIFO_Peek (FIFO_Clear fifo) = some (-1, FIFO_Clear fifo) ∧
    ∃ fifo1 fifo2, FIFO_Put (FIFO_Clear fifo) b = some (1, fifo1) ∧
      FIFO_Get fifo1 = some (((b.val : Nat) : Int), fifo2) := by
  have hpl : 0 < fifo.buffer.length := by omega
  refine ⟨rfl, rfl, rfl, rfl, FIFO_Get_empty _ (le_refl _), FIFO_Peek_empty _ (le_refl _),
    { FIFO_Clear fifo with
      buffer := fifo.buffer.set 0 b
      putindex := next_index 0 fifo.size
      count := int16_t_wrap (0 + 1) },
    { FIFO_Clear fifo with
      buffer := fifo.buffer.set 0 b
      putindex := next_index 0 fifo.size
      getindex := next_index 0 fifo.size
      count := int16_t_wrap (int16_t_wrap (0 + 1) - 1) }, ?_, ?_⟩
  · rw [FIFO_Put_eq]
    have h1 : ¬ (FIFO_Clear fifo).count ≥ (FIFO_Clear fifo).size := by
      show ¬ (0 : Int) ≥ fifo.size
      omega
    have h2 : (FIFO_Clear fifo).putindex < (FIFO_Clear fifo).buffer.length := hpl
    rw [if_neg h1, if_pos h2]
    rfl
  · rw [FIFO_Get_eq]
    have h1 : ¬ int16_t_wrap (0 + 1) ≤ 0 := by decide
    have h2 : (fifo.buffer.set 0 b)[0]? = some b := List.getElem?_set_self hpl
    simp only [FIFO_Clear, if_neg h1, h2]

/-- C10 on a full FIFO of capacity 2. -/
theorem C10_clear_resets_witness :
    (0 < 2) ∧
    FIFO_Count (FIFO_Clear
      { buffer := [7, 8], size := 2, getindex := 1, putindex := 1, count := 2 }) = 0 ∧
    ∃ fifo1 fifo2, FIFO_Put (FIFO_Clear
        { buffer := [7, 8], size := 2, getindex := 1, putindex := 1, count := 2 }) 9
        = some (1, fifo1) ∧
      FIFO_Get fifo1 = some (9, fifo2) :=
  ⟨by decide,
    (C10_clear_resets 2 (by decide)
      { buffer := [7, 8], size := 2, getindex := 1, putindex := 1, count := 2 }
      rfl rfl 9).2.2.2.1,
    (C10_clear_resets 2 (by decide)
      { buffer := [7, 8], size := 2, getindex := 1, putindex := 1, count := 2 }
      rfl rfl 9).2.2.2.2.2.2⟩

/-! ## Every call on well-formed records -/

theorem Inv_Clear {C : Nat} {fifo : fifo_type_s} (h : Inv C fifo) :
    Inv C (FIFO_Clear fifo) := by
  obtain ⟨hC, hC2, hs, hl, _, _, _, _⟩ := h
  have hr := ringSize_pos hC
  refine ⟨hC, hC2, hs, hl, hr, hr, ?_, ?_⟩
  · simp [FIFO_Clear]
  · simp [FIFO_Clear]

theorem Ring_Clear {C : Nat} {fifo : fifo_type_s} (h : Inv C fifo) :
    Ring C (FIFO_Clear fifo) :=
  (Ring_of_Fresh h.1 h.2.1 (Or.inr ⟨fifo, h.2.2.1, h.2.2.2.1, rfl⟩)).1

/-- On a well-formed record every call returns, the record stays well-formed,
and no slot beyond the ring is changed. -/
theorem call_Inv {C : Nat} {fifo : fifo_type_s} (h : Inv C fifo) (c : fifo_call) :
    ∃ r fifo1, call fifo c = some (r, fifo1) ∧ Inv C fifo1 ∧
      ∀ i : Nat, ringSize C ≤ i → fifo1.buffer[i]? = fifo.buffer[i]? := by
  cases c with
  | Clear => exact ⟨_, _, rfl, Inv_Clear h, fun _ _ => rfl⟩
  | Size => exact ⟨_, _, rfl, h, fun _ _ => rfl⟩
  | Count => exact ⟨_, _, rfl, h, fun _ _ => rfl⟩
  | Peek =>
    obtain ⟨v, hv⟩ := call_Peek_of_Inv h
    exact ⟨_, _, hv, h, fun _ _ => rfl⟩
  | Get =>
    by_cases hc : fifo.count ≤ 0
    · exact ⟨fifo_ret.int16 (-1), fifo, by simp [call, FIFO_Get_empty fifo hc], h,
        fun _ _ => rfl⟩
    · have hc1 : 0 < fifo.count := by omega
      exact ⟨_, _, call_Get_ok h hc1, Inv_Get h hc1, fun _ _ => rfl⟩
  | Put b =>
    by_cases hc : fifo.count ≥ fifo.size
    · exact ⟨fifo_ret.uint8 0, fifo, by simp [call, FIFO_Put_full fifo b hc], h,
        fun _ _ => rfl⟩
    · have hc1 : fifo.count < (C : Int) := by
        have := h.2.2.1
        omega
      refine ⟨_, _, call_Put_ok b h hc1, Inv_Put b h hc1, ?_⟩
      intro i hi
      have hp := h.2.2.2.2.2.1
      exact List.getElem?_set_ne (by omega)

/-- In ring discipline with capacity at most 256 every call returns and keeps
the ring discipline. -/
theorem call_Ring {C : Nat} (hC : C ≤ 256) {fifo : fifo_type_s} (h : Ring C fifo)
    (c : fifo_call) :
    ∃ r fifo1, call fifo c = some (r, fifo1) ∧ Ring C fifo1 := by
  have hrs := ringSize_of_le hC
  cases c with
  | Clear => exact ⟨_, _, rfl, Ring_Clear h.1⟩
  | Size => exact ⟨_, _, rfl, h⟩
  | Count => exact ⟨_, _, rfl, h⟩
  | Peek =>
    obtain ⟨v, hv⟩ := call_Peek_of_Inv h.1
    exact ⟨_, _, hv, h⟩
  | Get =>
    by_cases hc : fifo.count ≤ 0
    · exact ⟨fifo_ret.int16 (-1), fifo, by simp [call, FIFO_Get_empty fifo hc], h⟩
    · have hc1 : 0 < fifo.count := by omega
      exact ⟨_, _, call_Get_ok h.1 hc1, Ring_Get h hc1⟩
  | Put b =>
    by_cases hc : fifo.count ≥ fifo.size
    · exact ⟨fifo_ret.uint8 0, fifo, by simp [call, FIFO_Put_full fifo b hc], h⟩
    · have hc1 : fifo.count < (C : Int) := by
        have := h.1.2.2.1
        omega
      exact ⟨_, _, call_Put_ok b h.1 hc1, Ring_Put b h (by rw [hrs]; exact hc1)⟩

theorem run_cons_inv {fifo fifo2 : fifo_type_s} {c : fifo_call} {cs : List fifo_call}
    {log : List (fifo_call × fifo_ret)} (h : run fifo (c :: cs) = some (log, fifo2)) :
    ∃ r fifo1 log1, call fifo c = some (r, fifo1) ∧ run fifo1 cs = some (log1, fifo2) ∧
      log = (c, r) :: log1 := by
  simp only [run] at h
  cases hc : call fifo c with
  | none => simp [hc] at h
  | some p =>
    obtain ⟨r, f⟩ := p
    simp only [hc] at h
    cases hr : run f cs with
    | none => simp [hr] at h
    | some q =>
      obtain ⟨l, f3⟩ := q
      simp only [hr, Option.some.injEq, Prod.mk.injEq] at h
      obtain ⟨rfl, rfl⟩ := h
      exact ⟨r, f, l, rfl, hr, rfl⟩

/-- Every sequence of calls on a well-formed record runs to the end. -/
theorem run_total {C : Nat} :
    ∀ (calls : List fifo_call) (fifo : fifo_type_s), Inv C fifo →
      ∃ log fifo1, run fifo calls = some (log, fifo1) ∧ log.map Prod.fst = calls
  | [], fifo, _ => ⟨[], fifo, rfl, rfl⟩
  | c :: cs, fifo, h => by
    obtain ⟨r, f1, hc, hI, _⟩ := call_Inv h c
    obtain ⟨log, f2, hr, hm⟩ := run_total cs f1 hI
    exact ⟨_, f2, run_cons_of_call hc hr, by simp [hm]⟩

/-- A run from a well-formed record ends in a well-formed record and changes no
slot beyond the ring. -/
theorem run_Inv {C : Nat} :
    ∀ (calls : List fifo_call) (fifo fifo1 : fifo_type_s) (log : List (fifo_call × fifo_ret)),
      Inv C fifo → run fifo calls = some (log, fifo1) →
      Inv C fifo1 ∧ ∀ i : Nat, ringSize C ≤ i → fifo1.buffer[i]? = fifo.buffer[i]?
  | [], fifo, fifo1, log, h, hr => by
    simp only [run, Option.some.injEq, Prod.mk.injEq] at hr
    obtain ⟨_, rfl⟩ := hr
    exact ⟨h, fun _ _ => rfl⟩
  | c :: cs, fifo, fifo1, log, h, hr => by
    obtain ⟨r, f1, log1, hc, hr1, _⟩ := run_cons_inv hr
    obtain ⟨r2, f2, hc2, hI, hb⟩ := call_Inv h c
    rw [hc] at hc2
    simp only [Option.some.injEq, Prod.mk.injEq] at hc2
    obtain ⟨_, rfl⟩ := hc2
    obtain ⟨hI1, hb1⟩ := run_Inv cs f1 fifo1 log1 hI hr1
    exact ⟨hI1, fun i hi => (hb1 i hi).trans (hb i hi)⟩

/-- A run from a record in ring discipline, capacity at most 256, ends in ring
discipline. -/
theorem run_Ring {C : Nat} (hC : C ≤ 256) :
    ∀ (calls : List fifo_call) (fifo fifo1 : fifo_type_s) (log : List (fifo_call × fifo_ret)),
      Ring C fifo → run fifo calls = some (log, fifo1) → Ring C fifo1
  | [], fifo, fifo1, log, h, hr => by
    simp only [run, Option.some.injEq, Prod.mk.injEq] at hr
    obtain ⟨_, rfl⟩ := hr
    exact h
  | c :: cs, fifo, fifo1, log, h, hr => by
    obtain ⟨r, f1, log1, hc, hr1, _⟩ := run_cons_inv hr
    obtain ⟨r2, f2, hc2, hR⟩ := call_Ring hC h c
    rw [hc] at hc2
    simp only [Option.some.injEq, Prod.mk.injEq] at hc2
    obtain ⟨_, rfl⟩ := hc2
    exact run_Ring hC cs f1 fifo1 log1 hR hr1

theorem Inv_of_Reachable {C : Nat} {fifo : fifo_type_s} (hC : 0 < C) (hC2 : C ≤ 32767)
    (h : Reachable C fifo) : Inv C fifo := by
  obtain ⟨start, calls, log, hf, hr⟩ := h
  exact (run_Inv calls start fifo log (Inv_of_Fresh hC hC2 hf).1 hr).1

theorem Ring_of_Reachable {C : Nat} {fifo : fifo_type_s} (hC : 0 < C) (hC256 : C ≤ 256)
    (h : Reachable C fifo) : Ring C fifo := by
  obtain ⟨start, calls, log, hf, hr⟩ := h
  exact run_Ring hC256 calls start fifo log (Ring_of_Fresh hC (by omega) hf).1 hr

theorem Reachable_of_Fresh {C : Nat} {fifo : fifo_type_s} (h : Fresh C fifo) :
    Reachable C fifo :=
  ⟨fifo, [], [], h, rfl⟩

theorem Reachable_afterPutPutGet : Reachable 4 afterPutPutGet :=
  ⟨FIFO_New 4, [.Put 10, .Put 20, .Get],
    [(.Put 10, .uint8 1), (.Put 20, .uint8 1), (.Get, .int16 10)], Or.inl rfl, by decide⟩

theorem StateInvariant_of_Inv {C : Nat} {fifo : fifo_type_s} (h : Inv C fifo) :
    StateInvariant C fifo := by
  obtain ⟨_, _, _, _, hg, hp, h0, h1⟩ := h
  have := ringSize_le C
  exact ⟨h0, h1, by omega, by omega⟩

theorem next_index_lt_size (index : Nat) {size : Int} (h : 0 < size) :
    ((next_index index size : Nat) : Int) < size := by
  unfold next_index
  split
  · simpa using h
  · omega

/-- C11: for every capacity `C > 0` fitting the `size` field, the predicate
`0 ≤ count ≤ C`, `getindex < C`, `putindex < C` holds for a new FIFO; on every
record of that capacity on which it holds, each of the six calls (`FIFO_Clear`,
`FIFO_Put` and `FIFO_Get` whether they succeed or fail, `FIFO_Peek`, `FIFO_Count`,
`FIFO_Size`) returns and leaves a record of that capacity on which it holds
again; hence it holds in every reachable state. -/
theorem C11_state_invariant (C : Nat) (hC : 0 < C) (hC2 : C ≤ 32767) :
    StateInvariant C (FIFO_New C) ∧
    (∀ (fifo : fifo_type_s), fifo.size = (C : Int) → fifo.buffer.length = C →
      StateInvariant C fifo → ∀ (c : fifo_call),
      ∃ r fifo1, call fifo c = some (r, fifo1) ∧ StateInvariant C fifo1 ∧
        fifo1.size = (C : Int) ∧ fifo1.buffer.length = C) ∧
    (∀ (fifo : fifo_type_s), Reachable C fifo → StateInvariant C fifo) := by
  refine ⟨?_, ?_, ?_⟩
  · exact StateInvariant_of_Inv (Inv_of_Fresh hC hC2 (Or.inl rfl)).1
  · intro fifo hs hl hinv c
    obtain ⟨h0, h1, hg, hp⟩ := hinv
    cases c with
    | Clear =>
      exact ⟨_, _, rfl, ⟨le_refl _, by show (0 : Int) ≤ (C : Int); omega, hC, hC⟩, hs, hl⟩
    | Size => exact ⟨_, _, rfl, ⟨h0, h1, hg, hp⟩, hs, hl⟩
    | Count => exact ⟨_, _, rfl, ⟨h0, h1, hg, hp⟩, hs, hl⟩
    | Peek =>
      by_cases hc : fifo.count ≤ 0
      · exact ⟨fifo_ret.int16 (-1), fifo, by simp [call, FIFO_Peek_empty fifo hc],
          ⟨h0, h1, hg, hp⟩, hs, hl⟩
      · have hgl : fifo.getindex < fifo.buffer.length := by omega
        refine ⟨fifo_ret.int16 ((fifo.buffer[fifo.getindex].val : Nat) : Int), fifo, ?_,
          ⟨h0, h1, hg, hp⟩, hs, hl⟩
        simp [call, FIFO_Peek, hc, List.getElem?_eq_getElem hgl]
    | Get =>
      by_cases hc : fifo.count ≤ 0
      · exact ⟨fifo_ret.int16 (-1), fifo, by simp [call, FIFO_Get_empty fifo hc],
          ⟨h0, h1, hg, hp⟩, hs, hl⟩
      · have hgl : fifo.getindex < fifo.buffer.length := by omega
        have hn := next_index_lt_size fifo.getindex (show (0 : Int) < fifo.size by omega)
        have hw : int16_t_wrap (fifo.count - 1) = fifo.count - 1 :=
          int16_t_wrap_id (by omega) (by omega)
        refine ⟨fifo_ret.int16 ((fifo.buffer[fifo.getindex].val : Nat) : Int),
          { fifo with
            getindex := next_index fifo.getindex fifo.size
            count := int16_t_wrap (fifo.count - 1) }, ?_, ⟨?_, ?_, ?_, hp⟩, hs, hl⟩
        · simp [call, FIFO_Get_eq, hc, List.getElem?_eq_getElem hgl]
        · show 0 ≤ int16_t_wrap (fifo.count - 1)
          omega
        · show int16_t_wrap (fifo.count - 1) ≤ (C : Int)
          omega
        · show next_index fifo.getindex fifo.size < C
          omega
    | Put b =>
      by_cases hc : fifo.count ≥ fifo.size
      · exact ⟨fifo_ret.uint8 0, fifo, by simp [call, FIFO_Put_full fifo b hc],
          ⟨h0, h1, hg, hp⟩, hs, hl⟩
      · have hpl : fifo.putindex < fifo.buffer.length := by omega
        have hn := next_index_lt_size fifo.putindex (show (0 : Int) < fifo.size by omega)
        have hw : int16_t_wrap (fifo.count + 1) = fifo.count + 1 :=
          int16_t_wrap_id (by omega) (by omega)
        refine ⟨fifo_ret.uint8 1,
          { fifo with
            buffer := fifo.buffer.set fifo.putindex b
            putindex := next_index fifo.putindex fifo.size
            count := int16_t_wrap (fifo.count + 1) }, ?_, ⟨?_, ?_, hg, ?_⟩, hs, ?_⟩
        · simp [call, FIFO_Put_eq, hc, hpl]
        · show 0 ≤ int16_t_wrap (fifo.count + 1)
          omega
        · show int16_t_wrap (fifo.count + 1) ≤ (C : Int)
          omega
        · show next_index fifo.putindex fifo.size < C
          omega
        · simpa using hl
  · intro fifo hr
    exact StateInvariant_of_Inv (Inv_of_Reachable hC hC2 hr)

/-- C11 at capacity 4: a new FIFO, and the state after two `FIFO_Put`s and a
`FIFO_Get`. -/
theorem C11_state_invariant_witness :
    (0 < 4 ∧ 4 ≤ 32767) ∧ StateInvariant 4 (FIFO_New 4) ∧
    StateInvariant 4 afterPutPutGet :=
  ⟨⟨by decide, by decide⟩, (C11_state_invariant 4 (by decide) (by decide)).1,
    (C11_state_invariant 4 (by decide) (by decide)).2.2 afterPutPutGet
      Reachable_afterPutPutGet⟩

theorem call_frame {fifo fifo1 : fifo_type_s} {c : fifo_call} {r : fifo_ret}
    (h : call fifo c = some (r, fifo1)) :
    fifo1.size = fifo.size ∧ fifo1.buffer.length = fifo.buffer.length := by
  cases c with
  | Clear =>
    simp only [call, Option.some.injEq, Prod.mk.injEq] at h
    obtain ⟨_, rfl⟩ := h
    exact ⟨rfl, rfl⟩
  | Size =>
    simp only [call, Option.some.injEq, Prod.mk.injEq] at h
    obtain ⟨_, rfl⟩ := h
    exact ⟨rfl, rfl⟩
  | Count =>
    simp only [call, Option.some.injEq, Prod.mk.injEq] at h
    obtain ⟨_, rfl⟩ := h
    exact ⟨rfl, rfl⟩
  | Peek =>
    simp only [call, FIFO_Peek] at h
    by_cases hc : fifo.count ≤ 0
    · simp only [if_pos hc, Option.map_some', Option.some.injEq, Prod.mk.injEq] at h
      obtain ⟨_, rfl⟩ := h
      exact ⟨rfl, rfl⟩
    · cases hb : fifo.buffer[fifo.getindex]? with
      | none => simp [hc, hb] at h
      | some b =>
        simp only [if_neg hc, hb, Option.map_some', Option.some.injEq, Prod.mk.injEq] at h
        obtain ⟨_, rfl⟩ := h
        exact ⟨rfl, rfl⟩
  | Get =>
    simp only [call, FIFO_Get_eq] at h
    by_cases hc : fifo.count ≤ 0
    · simp only [if_pos hc, Option.map_some', Option.some.injEq, Prod.mk.injEq] at h
      obtain ⟨_, rfl⟩ := h
      exact ⟨rfl, rfl⟩
    · cases hb : fifo.buffer[fifo.getindex]? with
      | none => simp [hc, hb] at h
      | some b =>
        simp only [if_neg hc, hb, Option.map_some', Option.some.injEq, Prod.mk.injEq] at h
        obtain ⟨_, rfl⟩ := h
        exact ⟨rfl, rfl⟩
  | Put b =>
    simp only [call, FIFO_Put_eq] at h
    by_cases hc : fifo.count ≥ fifo.size
    · simp only [if_pos hc, Option.map_some', Option.some.injEq, Prod.mk.injEq] at h
      obtain ⟨_, rfl⟩ := h
      exact ⟨rfl, rfl⟩
    · by_cases hp : fifo.putindex < fifo.buffer.length
      · simp only [if_neg hc, if_pos hp, Option.map_some', Option.some.injEq,
          Prod.mk.injEq] at h
        obtain ⟨_, rfl⟩ := h
        exact ⟨rfl, by simp⟩
      · simp [hc, hp] at h

theorem run_frame :
    ∀ (calls : List fifo_call) (fifo fifo1 : fifo_type_s) (log : List (fifo_call × fifo_ret)),
      run fifo calls = some (log, fifo1) →
      fifo1.size = fifo.size ∧ fifo1.buffer.length = fifo.buffer.length
  | [], fifo, fifo1, log, hr => by
    simp only [run, Option.some.injEq, Prod.mk.injEq] at hr
    obtain ⟨_, rfl⟩ := hr
    exact ⟨rfl, rfl⟩
  | c :: cs, fifo, fifo1, log, hr => by
    obtain ⟨r, f1, log1, hc, hr1, _⟩ := run_cons_inv hr
    obtain ⟨h1, h2⟩ := call_frame hc
    obtain ⟨h3, h4⟩ := run_frame cs f1 fifo1 log1 hr1
    exact ⟨h3.trans h1, h4.trans h2⟩

/-- C12: `FIFO_Size` returns the `size` field; `FIFO_New(name, size)` sets it to
`size` (a value fitting `int16_t`) over a storage of `size` slots; no call
(`FIFO_Clear`, `FIFO_Put`, `FIFO_Get`, `FIFO_Peek`, `FIFO_Count`, `FIFO_Size`)
changes the `size` field or the number of slots of the storage; so after any
sequence of calls `FIFO_Size` returns what it returned before, and on a new
FIFO every sequence of calls runs to the end and `FIFO_Size` then returns the
capacity given at construction. -/
theorem C12_capacity_fixed :
    (∀ (fifo : fifo_type_s), FIFO_Size fifo = fifo.size) ∧
    (∀ (size : Nat), size ≤ 32767 →
      FIFO_Size (FIFO_New size) = (size : Int) ∧ (FIFO_New size).buffer.length = size) ∧
    (∀ (fifo fifo1 : fifo_type_s) (c : fifo_call) (r : fifo_ret),
      call fifo c = some (r, fifo1) →
      fifo1.size = fifo.size ∧ fifo1.buffer.length = fifo.buffer.length) ∧
    (∀ (fifo fifo1 : fifo_type_s) (calls : List fifo_call) (log : List (fifo_call × fifo_ret)),
      run fifo calls = some (log, fifo1) →
      FIFO_Size fifo1 = FIFO_Size fifo ∧ fifo1.buffer.length = fifo.buffer.length) ∧
    (∀ (C : Nat), 0 < C → C ≤ 32767 → ∀ (calls : List fifo_call),
      ∃ log fifo1, run (FIFO_New C) calls = some (log, fifo1) ∧
        FIFO_Size fifo1 = (C : Int) ∧ fifo1.buffer.length = C) := by
  have hnew : ∀ (size : Nat), size ≤ 32767 →
      FIFO_Size (FIFO_New size) = (size : Int) ∧ (FIFO_New size).buffer.length = size := by
    intro size hsz
    refine ⟨?_, by simp [FIFO_New]⟩
    show int16_t_wrap (size : Int) = (size : Int)
    exact int16_t_wrap_id (by omega) (by omega)
  refine ⟨fun _ => rfl, hnew, ?_, ?_, ?_⟩
  · intro fifo fifo1 c r h
    exact call_frame h
  · intro fifo fifo1 calls log h
    exact run_frame calls fifo fifo1 log h
  · intro C hC hC2 calls
    obtain ⟨log, fifo1, hr, _⟩ :=
      run_total calls (FIFO_New C) (Inv_of_Fresh hC hC2 (Or.inl rfl)).1
    obtain ⟨h1, h2⟩ := run_frame calls _ fifo1 log hr
    obtain ⟨h3, h4⟩ := hnew C hC2
    exact ⟨log, fifo1, hr, h1.trans h3, h2.trans h4⟩

/-- C12 at capacity 4 with the scenario of the specification. -/
theorem C12_capacity_fixed_witness :
    (0 < 4 ∧ 4 ≤ 32767) ∧
    ∃ log fifo1, run (FIFO_New 4) scenario = some (log, fifo1) ∧
      FIFO_Size fifo1 = 4 ∧ fifo1.buffer.length = 4 :=
  ⟨⟨by decide, by decide⟩,
    C12_capacity_fixed.2.2.2.2 4 (by decide) (by decide) scenario⟩

/-! ## The status register -/

theorem FIFO_Clear_sreg_eq (m : avr_state) (hS : m.SREG < 256) :
    FIFO_Clear_sreg m = { SREG := m.SREG, fifo := FIFO_Clear m.fifo } := by
  simp [FIFO_Clear_sreg, FIFO_Clear, Nat.mod_eq_of_lt hS]

theorem FIFO_Get_sreg_eq (m : avr_state) (hS : m.SREG < 256) :
    FIFO_Get_sreg m
      = (FIFO_Get m.fifo).map (fun r => (r.1, { SREG := m.SREG, fifo := r.2 })) := by
  unfold FIFO_Get_sreg FIFO_Get
  simp only [Nat.mod_eq_of_lt hS]
  by_cases hc : m.fifo.count ≤ 0
  · simp [hc]
  · cases hb : m.fifo.buffer[m.fifo.getindex]? with
    | none => simp [hc, hb]
    | some b => simp [hc, hb]

theorem FIFO_Peek_sreg_eq (m : avr_state) (hS : m.SREG < 256) :
    FIFO_Peek_sreg m
      = (FIFO_Peek m.fifo).map (fun r => (r.1, { SREG := m.SREG, fifo := r.2 })) := by
  unfold FIFO_Peek_sreg FIFO_Peek
  simp only [Nat.mod_eq_of_lt hS]
  by_cases hc : m.fifo.count ≤ 0
  · simp [hc]
  · cases hb : m.fifo.buffer[m.fifo.getindex]? with
    | none => simp [hc, hb]
    | some b => simp [hc, hb]

theorem FIFO_Put_sreg_eq (m : avr_state) (putdata : uint8_t) (hS : m.SREG < 256) :
    FIFO_Put_sreg m putdata
      = (FIFO_Put m.fifo putdata).map (fun r => (r.1, { SREG := m.SREG, fifo := r.2 })) := by
  unfold FIFO_Put_sreg FIFO_Put
  simp only [Nat.mod_eq_of_lt hS]
  by_cases hc : m.fifo.count ≥ m.fifo.size
  · simp [hc]
  · by_cases hp : m.fifo.putindex < m.fifo.buffer.length
    · simp [hc, hp]
    · simp [hc, hp]

theorem FIFO_Count_sreg_eq (m : avr_state) (hS : m.SREG < 256) :
    FIFO_Count_sreg m = (FIFO_Count m.fifo, m) := by
  simp [FIFO_Count_sreg, FIFO_Count, Nat.mod_eq_of_lt hS]

theorem SREG_of_map_eq {α : Type} {m m1 : avr_state} {x : Option (α × fifo_type_s)} {r : α}
    (h : x.map (fun r => (r.1, ({ SREG := m.SREG, fifo := r.2 } : avr_state))) = some (r, m1)) :
    m1.SREG = m.SREG := by
  cases x with
  | none => simp at h
  | some p =>
    simp only [Option.map_some', Option.some.injEq, Prod.mk.injEq] at h
    obtain ⟨_, rfl⟩ := h
    rfl

/-- C13: with `SREG` as explicit state (an 8-bit register), each of `FIFO_Clear`,
`FIFO_Get`, `FIFO_Peek`, `FIFO_Put` and `FIFO_Count` does to the record what the
operation without `SREG` does and returns with `SREG` equal to its value on
entry, on every path: the early return of `FIFO_Get` / `FIFO_Peek` on an empty
FIFO and of `FIFO_Put` on a full one give back the very state they were entered
with.  In particular the global interrupt flag (bit 7) is set on return exactly
when it was set on entry. -/
theorem C13_sreg_restored (m : avr_state) (hS : m.SREG < 256) :
    (FIFO_Clear_sreg m = { SREG := m.SREG, fifo := FIFO_Clear m.fifo } ∧
      FIFO_Get_sreg m
        = (FIFO_Get m.fifo).map (fun r => (r.1, { SREG := m.SREG, fifo := r.2 })) ∧
      FIFO_Peek_sreg m
        = (FIFO_Peek m.fifo).map (fun r => (r.1, { SREG := m.SREG, fifo := r.2 })) ∧
      (∀ putdata : uint8_t, FIFO_Put_sreg m putdata
        = (FIFO_Put m.fifo putdata).map (fun r => (r.1, { SREG := m.SREG, fifo := r.2 }))) ∧
      FIFO_Count_sreg m = (FIFO_Count m.fifo, m)) ∧
    ((FIFO_Clear_sreg m).SREG = m.SREG ∧
      (∀ (r : Int) (m1 : avr_state), FIFO_Get_sreg m = some (r, m1) → m1.SREG = m.SREG) ∧
      (∀ (r : Int) (m1 : avr_state), FIFO_Peek_sreg m = some (r, m1) → m1.SREG = m.SREG) ∧
      (∀ (putdata : uint8_t) (r : Nat) (m1 : avr_state),
        FIFO_Put_sreg m putdata = some (r, m1) → m1.SREG = m.SREG) ∧
      (FIFO_Count_sreg m).2.SREG = m.SREG) ∧
    ((m.fifo.count ≤ 0 → FIFO_Get_sreg m = some (-1, m) ∧ FIFO_Peek_sreg m = some (-1, m)) ∧
      (m.fifo.count ≥ m.fifo.size → ∀ putdata : uint8_t,
        FIFO_Put_sreg m putdata = some (0, m))) ∧
    ((FIFO_Clear_sreg m).SREG.testBit 7 = m.SREG.testBit 7 ∧
      (∀ (r : Int) (m1 : avr_state), FIFO_Get_sreg m = some (r, m1) →
        m1.SREG.testBit 7 = m.SREG.testBit 7) ∧
      (∀ (r : Int) (m1 : avr_state), FIFO_Peek_sreg m = some (r, m1) →
        m1.SREG.testBit 7 = m.SREG.testBit 7) ∧
      (∀ (putdata : uint8_t) (r : Nat) (m1 : avr_state),
        FIFO_Put_sreg m putdata = some (r, m1) → m1.SREG.testBit 7 = m.SREG.testBit 7) ∧
      (FIFO_Count_sreg m).2.SREG.testBit 7 = m.SREG.testBit 7) := by
  have hclear := FIFO_Clear_sreg_eq m hS
  have hget := FIFO_Get_sreg_eq m hS
  have hpeek := FIFO_Peek_sreg_eq m hS
  have hput := fun putdata => FIFO_Put_sreg_eq m putdata hS
  have hcount := FIFO_Count_sreg_eq m hS
  have h1 : (FIFO_Clear_sreg m).SREG = m.SREG := by rw [hclear]
  have h2 : ∀ (r : Int) (m1 : avr_state), FIFO_Get_sreg m = some (r, m1) →
      m1.SREG = m.SREG := by
    intro r m1 h
    rw [hget] at h
    exact SREG_of_map_eq h
  have h3 : ∀ (r : Int) (m1 : avr_state), FIFO_Peek_sreg m = some (r, m1) →
      m1.SREG = m.SREG := by
    intro r m1 h
    rw [hpeek] at h
    exact SREG_of_map_eq h
  have h4 : ∀ (putdata : uint8_t) (r : Nat) (m1 : avr_state),
      FIFO_Put_sreg m putdata = some (r, m1) → m1.SREG = m.SREG := by
    intro putdata r m1 h
    rw [hput] at h
    exact SREG_of_map_eq h
  have h5 : (FIFO_Count_sreg m).2.SREG = m.SREG := by rw [hcount]
  refine ⟨⟨hclear, hget, hpeek, hput, hcount⟩, ⟨h1, h2, h3, h4, h5⟩, ⟨?_, ?_⟩,
    ⟨by rw [h1], fun r m1 h => by rw [h2 r m1 h], fun r m1 h => by rw [h3 r m1 h],
      fun b r m1 h => by rw [h4 b r m1 h], by rw [h5]⟩⟩
  · intro hc
    rw [hget, hpeek, FIFO_Get_empty _ hc, FIFO_Peek_empty _ hc]
    exact ⟨rfl, rfl⟩
  · intro hc putdata
    rw [hput, FIFO_Put_full _ _ hc]
    rfl

/-- C13 with the interrupt flag set on entry (`SREG = 0x80`) on an empty FIFO of
capacity 2: the early return of `FIFO_Get` and a successful `FIFO_Put`. -/
theorem C13_sreg_restored_witness :
    (0x80 : Nat) < 256 ∧
    FIFO_Get_sreg { SREG := 0x80, fifo := FIFO_New 2 }
      = some (-1, { SREG := 0x80, fifo := FIFO_New 2 }) ∧
    FIFO_Put_sreg { SREG := 0x80, fifo := FIFO_New 2 } 7
      = (FIFO_Put (FIFO_New 2) 7).map (fun r => (r.1, { SREG := 0x80, fifo := r.2 })) :=
  ⟨by decide,
    ((C13_sreg_restored { SREG := 0x80, fifo := FIFO_New 2 } (by decide)).2.2.1.1
      (by decide)).1,
    (C13_sreg_restored { SREG := 0x80, fifo := FIFO_New 2 } (by decide)).1.2.2.2.1 7⟩

/-! ## The write side of the serial driver -/

theorem testBit_of_lt_256 {x i : Nat} (hx : x < 256) (hi : 8 ≤ i) : x.testBit i = false := by
  apply Nat.testBit_lt_two_pow
  calc x < 256 := hx
    _ = 2 ^ 8 := by norm_num
    _ ≤ 2 ^ i := Nat.pow_le_pow_right (by norm_num) hi

/-- The statement `E_TX_INT` sets bit `k` of the register and keeps the others. -/
theorem E_TX_INT_testBit {k x : Nat} (hk : k < 8) (hx : x < 256) (i : Nat) :
    (E_TX_INT k x).testBit i = if i = k then true else x.testBit i := by
  unfold E_TX_INT BV
  have h256 : (256 : Nat) = 2 ^ 8 := by norm_num
  rw [h256, Nat.testBit_mod_two_pow, Nat.testBit_or, Nat.one_shiftLeft, Nat.testBit_two_pow]
  by_cases hik : i = k
  · subst hik
    simp [hk]
  · by_cases hi : i < 8
    · simp [hik, hi, Ne.symm hik]
    · have hf : x.testBit i = false := testBit_of_lt_256 hx (show 8 ≤ i by omega)
      simp [hik, hi, hf]

/-- The statement `D_TX_INT` clears bit `k` of the register and keeps the others. -/
theorem D_TX_INT_testBit {k x : Nat} (hk : k < 8) (hx : x < 256) (i : Nat) :
    (D_TX_INT k x).testBit i = if i = k then false else x.testBit i := by
  unfold D_TX_INT BV
  have h256 : (256 : Nat) = 2 ^ 8 := by norm_num
  have h65535 : (65535 : Nat) = 2 ^ 16 - 1 := by norm_num
  rw [h256, Nat.testBit_mod_two_pow, Nat.testBit_and, Nat.testBit_xor, Nat.one_shiftLeft,
    Nat.testBit_two_pow, h65535, Nat.testBit_two_pow_sub_one]
  by_cases hik : i = k
  · subst hik
    have : i < 16 := by omega
    simp [hk, this]
  · by_cases hi : i < 8
    · have : i < 16 := by omega
      simp [hik, hi, Ne.symm hik, this]
    · have hf : x.testBit i = false := testBit_of_lt_256 hx (show 8 ≤ i by omega)
      simp [hik, hi, hf]

theorem ringSize_TX : ringSize TX_BUFFER_SIZE = 64 := by decide

/-- C15: for every byte `d` and every state of the transmit FIFO (in ring
discipline, capacity `TX_BUFFER_SIZE` = 64), `UART_Write(d)` returns, and returns
non-zero if and only if the transmit FIFO held fewer than 64 bytes; on success
`d` is the newest byte of the transmit FIFO and the bit `UDRIE0` of `UCSR0B` is
set (the other bits are as they were); on failure the whole state, transmit
FIFO and `UCSR0B` included, is as it was.  The receive FIFO is as it was in
both cases. -/
theorem C15_uart_write (UDRIE0 : Nat) (hbit : UDRIE0 < 8) (u : uart_state) (data : uint8_t)
    (hTX : Ring TX_BUFFER_SIZE u.TX_BUFFER) (hreg : u.UCSR0B < 256) :
    ∃ r u1, UART_Write UDRIE0 u data = some (r, u1) ∧
      (r ≠ 0 ↔ u.TX_BUFFER.count < 64) ∧
      (r ≠ 0 ↔ (contents 64 u.TX_BUFFER).length < 64) ∧
      (r ≠ 0 →
        contents 64 u1.TX_BUFFER = contents 64 u.TX_BUFFER ++ [data] ∧
        Ring TX_BUFFER_SIZE u1.TX_BUFFER ∧
        u1.UCSR0B.testBit UDRIE0 = true ∧
        ∀ i : Nat, i ≠ UDRIE0 → u1.UCSR0B.testBit i = u.UCSR0B.testBit i) ∧
      (r = 0 → u1 = u) ∧
      u1.RX_BUFFER = u.RX_BUFFER ∧ u1.UDR0 = u.UDR0 := by
  have hI := hTX.1
  have h0 : 0 ≤ u.TX_BUFFER.count := hI.2.2.2.2.2.2.1
  have hlen : (contents 64 u.TX_BUFFER).length < 64 ↔ u.TX_BUFFER.count < 64 := by
    rw [contents_length]
    omega
  by_cases hc : u.TX_BUFFER.count < 64
  · have hc1 : u.TX_BUFFER.count < (TX_BUFFER_SIZE : Int) := hc
    have hc2 : u.TX_BUFFER.count < (ringSize TX_BUFFER_SIZE : Int) := by
      rw [ringSize_TX]
      exact hc
    have hput := FIFO_Put_ok data hI hc1
    have hcon := contents_Put data hTX hc2
    have hring := Ring_Put data hTX hc2
    rw [ringSize_TX] at hcon
    refine ⟨1, { u with
        TX_BUFFER := { u.TX_BUFFER with
          buffer := u.TX_BUFFER.buffer.set u.TX_BUFFER.putindex data
          putindex := (u.TX_BUFFER.putindex + 1) % ringSize TX_BUFFER_SIZE
          count := u.TX_BUFFER.count + 1 }
        UCSR0B := E_TX_INT UDRIE0 u.UCSR0B },
      ?_, by simp [hc], by simp [hlen, hc], ?_, by simp, rfl, rfl⟩
    · simp [UART_Write, hput]
    · intro _
      refine ⟨hcon, hring, ?_, ?_⟩
      · show (E_TX_INT UDRIE0 u.UCSR0B).testBit UDRIE0 = true
        rw [E_TX_INT_testBit hbit hreg]
        simp
      · intro i hi
        show (E_TX_INT UDRIE0 u.UCSR0B).testBit i = u.UCSR0B.testBit i
        rw [E_TX_INT_testBit hbit hreg]
        simp [hi]
  · have hfull : u.TX_BUFFER.count ≥ u.TX_BUFFER.size := by
      have hs : u.TX_BUFFER.size = (TX_BUFFER_SIZE : Int) := hI.2.2.1
      rw [hs]
      show ((64 : Nat) : Int) ≤ u.TX_BUFFER.count
      omega
    have hput := FIFO_Put_full u.TX_BUFFER data hfull
    refine ⟨0, u, ?_, by simp [hc], by simp [hlen, hc], by simp, fun _ => rfl, rfl, rfl⟩
    simp only [UART_Write, hput]
    rfl

/-- C15 on the driver right after start (both FIFOs new, `UCSR0B` = 0x98) with
`UDRIE0` = 5. -/
theorem C15_uart_write_witness :
    (5 < 8 ∧ (0x98 : Nat) < 256) ∧
    ∃ r u1, UART_Write 5
        { TX_BUFFER := FIFO_New 64, RX_BUFFER := FIFO_New 64, UCSR0B := 0x98, UDR0 := [] } 65
        = some (r, u1) ∧
      (r ≠ 0 ↔ (FIFO_New 64).count < 64) := by
  obtain ⟨r, u1, h1, h2, _⟩ := C15_uart_write 5 (by decide)
    { TX_BUFFER := FIFO_New 64, RX_BUFFER := FIFO_New 64, UCSR0B := 0x98, UDR0 := [] } 65
    (Ring_of_Fresh (by decide) (by decide) (Or.inl rfl)).1 (by decide)
  exact ⟨⟨by decide, by decide⟩, r, u1, h1, h2⟩

/-- C16: for every state of the transmit FIFO (in ring discipline, capacity 64),
one run of the handler of `USART_UDRE_vect` returns.  If the transmit FIFO is
empty it clears the bit `UDRIE0` of `UCSR0B` (the other bits are as they were),
writes nothing to `UDR0` and leaves both FIFOs as they were.  If the transmit
FIFO is not empty it removes exactly one byte, the oldest, writes that byte
value (0..255) to `UDR0` and leaves `UCSR0B` and the receive FIFO as they
were. -/
theorem C16_udre_handler (UDRIE0 : Nat) (hbit : UDRIE0 < 8) (u : uart_state)
    (hTX : Ring TX_BUFFER_SIZE u.TX_BUFFER) (hreg : u.UCSR0B < 256) :
    (u.TX_BUFFER.count = 0 →
      contents 64 u.TX_BUFFER = [] ∧
      ∃ u1, USART_UDRE_vect UDRIE0 u = some u1 ∧
        u1.UCSR0B.testBit UDRIE0 = false ∧
        (∀ i : Nat, i ≠ UDRIE0 → u1.UCSR0B.testBit i = u.UCSR0B.testBit i) ∧
        u1.UDR0 = u.UDR0 ∧ u1.TX_BUFFER = u.TX_BUFFER ∧ u1.RX_BUFFER = u.RX_BUFFER) ∧
    (0 < u.TX_BUFFER.count →
      ∃ (b : uint8_t) (rest : List uint8_t) (u1 : uart_state),
        contents 64 u.TX_BUFFER = b :: rest ∧
        USART_UDRE_vect UDRIE0 u = some u1 ∧
        contents 64 u1.TX_BUFFER = rest ∧
        u1.TX_BUFFER.count = u.TX_BUFFER.count - 1 ∧
        Ring TX_BUFFER_SIZE u1.TX_BUFFER ∧
        u1.UDR0 = u.UDR0 ++ [b.val] ∧ b.val ≤ 255 ∧
        u1.UCSR0B = u.UCSR0B ∧ u1.RX_BUFFER = u.RX_BUFFER) := by
  have hI := hTX.1
  have hcmax : u.TX_BUFFER.count ≤ (TX_BUFFER_SIZE : Int) := hI.2.2.2.2.2.2.2
  have hcmax2 : u.TX_BUFFER.count ≤ 64 := hcmax
  constructor
  · intro hz
    have hcnt : ¬ FIFO_Count u.TX_BUFFER > 0 := by
      unfold FIFO_Count uint16_t_wrap
      rw [hz]
      decide
    refine ⟨by simp [contents, hz], { u with UCSR0B := D_TX_INT UDRIE0 u.UCSR0B }, ?_, ?_, ?_,
      rfl, rfl, rfl⟩
    · simp only [USART_UDRE_vect, if_neg hcnt]
    · show (D_TX_INT UDRIE0 u.UCSR0B).testBit UDRIE0 = false
      rw [D_TX_INT_testBit hbit hreg]
      simp
    · intro i hi
      show (D_TX_INT UDRIE0 u.UCSR0B).testBit i = u.UCSR0B.testBit i
      rw [D_TX_INT_testBit hbit hreg]
      simp [hi]
  · intro hpos
    have hcnt : FIFO_Count u.TX_BUFFER > 0 := by
      unfold FIFO_Count uint16_t_wrap
      omega
    have hget := FIFO_Get_ok hI hpos
    have hcon := contents_Get hTX hpos
    have hring := Ring_Get hTX hpos
    rw [ringSize_TX] at hcon
    have hb := (u.TX_BUFFER.buffer.getD u.TX_BUFFER.getindex 0).isLt
    refine ⟨u.TX_BUFFER.buffer.getD u.TX_BUFFER.getindex 0, _,
      { u with
        TX_BUFFER := { u.TX_BUFFER with
          getindex := (u.TX_BUFFER.getindex + 1) % ringSize TX_BUFFER_SIZE
          count := u.TX_BUFFER.count - 1 }
        UDR0 := u.UDR0 ++ [(u.TX_BUFFER.buffer.getD u.TX_BUFFER.getindex 0).val] },
      hcon, ?_, rfl, rfl, hring, rfl, by omega, rfl, rfl⟩
    simp only [USART_UDRE_vect, if_pos hcnt, hget, byteValue]
    have hcast : (((((u.TX_BUFFER.buffer.getD u.TX_BUFFER.getindex 0).val : Nat) : Int) % 256).toNat)
        = (u.TX_BUFFER.buffer.getD u.TX_BUFFER.getindex 0).val := by
      omega
    rw [hcast]

/-- C16 on a driver whose transmit FIFO is empty, and on one whose transmit
FIFO holds the byte 65, with `UDRIE0` = 5 and `UCSR0B` = 0xB8. -/
theorem C16_udre_handler_witness :
    (5 < 8 ∧ (0xB8 : Nat) < 256) ∧
    (∃ u1, USART_UDRE_vect 5
        { TX_BUFFER := FIFO_New 64, RX_BUFFER := FIFO_New 64, UCSR0B := 0xB8, UDR0 := [] }
        = some u1 ∧ u1.UCSR0B.testBit 5 = false ∧ u1.UDR0 = []) ∧
    (∃ (b : uint8_t) (rest : List uint8_t) (u1 : uart_state),
      contents 64 { FIFO_New 64 with buffer := (FIFO_New 64).buffer.set 0 65,
                                     putindex := 1, count := 1 } = b :: rest ∧
      USART_UDRE_vect 5
        { TX_BUFFER := { FIFO_New 64 with buffer := (FIFO_New 64).buffer.set 0 65,
                                          putindex := 1, count := 1 },
          RX_BUFFER := FIFO_New 64, UCSR0B := 0xB8, UDR0 := [] } = some u1 ∧
      u1.UDR0 = [] ++ [b.val] ∧ u1.UCSR0B = 0xB8) := by
  refine ⟨⟨by decide, by decide⟩, ?_, ?_⟩
  · obtain ⟨_, u1, h1, h2, _, h4, _⟩ := (C16_udre_handler 5 (by decide)
      { TX_BUFFER := FIFO_New 64, RX_BUFFER := FIFO_New 64, UCSR0B := 0xB8, UDR0 := [] }
      (Ring_of_Fresh (by decide) (by decide) (Or.inl rfl)).1 (by decide)).1 rfl
    exact ⟨u1, h1, h2, h4⟩
  · have hR : Ring TX_BUFFER_SIZE { FIFO_New 64 with
        buffer := (FIFO_New 64).buffer.set 0 65, putindex := 1, count := 1 } := by
      refine ⟨⟨by decide, by decide, by decide, by decide, by decide, by decide, by decide,
        by decide⟩, by decide, by decide⟩
    obtain ⟨b, rest, u1, h1, h2, _, _, _, h6, _, h8, _⟩ := (C16_udre_handler 5 (by decide)
      { TX_BUFFER := { FIFO_New 64 with buffer := (FIFO_New 64).buffer.set 0 65,
                                        putindex := 1, count := 1 },
        RX_BUFFER := FIFO_New 64, UCSR0B := 0xB8, UDR0 := [] } hR (by decide)).2 (by decide)
    exact ⟨b, rest, u1, h1, h2, h6, h8⟩

/-! ## The FIFO as a bounded queue -/

/-- C17: for every capacity `1 ≤ C ≤ 256`, with `abs(s)` the list of the `count`
bytes `buffer[getindex]`, `buffer[(getindex+1) mod C]`, ... (`contents C s`), in
every state reachable from a new or cleared FIFO: `abs` of a new or cleared
FIFO is empty and `FIFO_Clear` yields `abs = []`; `FIFO_Put(b)` returns success
iff `length(abs) < C` and then `abs' = abs ++ [b]`, otherwise `abs' = abs`;
`FIFO_Get` returns `head(abs)` with `abs' = tail(abs)` when `abs` is non-empty and
-1 with `abs' = abs` otherwise; `FIFO_Peek` returns `head(abs)` or -1 with
`abs' = abs`; `FIFO_Count` returns `length(abs)`: each operation is the operation
of the bounded queue. -/
theorem C17_refines_queue (C : Nat) (hC : 0 < C) (hC256 : C ≤ 256)
    (fifo : fifo_type_s) (hreach : Reachable C fifo) :
    (∀ start : fifo_type_s, Fresh C start → contents C start = []) ∧
    contents C (FIFO_Clear fifo) = queue_Clear (contents C fifo) ∧
    (∀ b : uint8_t, (FIFO_Put fifo b).map (fun r => (r.1, contents C r.2))
      = some (queue_Put C (contents C fifo) b)) ∧
    (∀ b : uint8_t, ∃ r fifo1, FIFO_Put fifo b = some (r, fifo1) ∧
      (r ≠ 0 ↔ (contents C fifo).length < C) ∧
      (r ≠ 0 → contents C fifo1 = contents C fifo ++ [b]) ∧
      (r = 0 → contents C fifo1 = contents C fifo)) ∧
    (FIFO_Get fifo).map (fun r => (r.1, contents C r.2))
      = some (queue_Get (contents C fifo)) ∧
    (FIFO_Peek fifo).map (fun r => (r.1, contents C r.2))
      = some (queue_Peek (contents C fifo)) ∧
    FIFO_Count fifo = queue_Count (contents C fifo) := by
  have hC2 : C ≤ 32767 := by omega
  have hrs := ringSize_of_le hC256
  have hR := Ring_of_Reachable hC hC256 hreach
  have hI := hR.1
  obtain ⟨_, _, hs, hl, hg, hp, h0, h1⟩ := hI
  have hlen := contents_length C fifo
  have hputcases : ∀ b : uint8_t, ∃ r fifo1, FIFO_Put fifo b = some (r, fifo1) ∧
      (r ≠ 0 ↔ (contents C fifo).length < C) ∧
      (r ≠ 0 → contents C fifo1 = contents C fifo ++ [b]) ∧
      (r = 0 → contents C fifo1 = contents C fifo) ∧
      (r, contents C fifo1) = queue_Put C (contents C fifo) b := by
    intro b
    by_cases hc : fifo.count < (C : Int)
    · have hlt : (contents C fifo).length < C := by
        rw [hlen]
        omega
      have hcon := contents_Put b hR (by rw [hrs]; exact hc)
      rw [hrs] at hcon
      refine ⟨1, _, FIFO_Put_ok b hR.1 hc, by simp [hlt], fun _ => ?_, by simp, ?_⟩
      · rw [hrs]
        exact hcon
      · rw [hrs, hcon]
        simp [queue_Put, hlt]
    · have hnlt : ¬ (contents C fifo).length < C := by
        rw [hlen]
        omega
      refine ⟨0, fifo, FIFO_Put_full fifo b (by omega), by simp [hnlt], by simp,
        fun _ => rfl, ?_⟩
      simp [queue_Put, hnlt]
  refine ⟨?_, ?_, ?_, ?_, ?_, ?_, ?_⟩
  · intro start hstart
    have := (Ring_of_Fresh hC hC2 hstart).2
    rw [hrs] at this
    exact this
  · simp [contents, FIFO_Clear, queue_Clear]
  · intro b
    obtain ⟨r, fifo1, hput, _, _, _, hq⟩ := hputcases b
    rw [hput, ← hq]
    rfl
  · intro b
    obtain ⟨r, fifo1, hput, h2, h3, h4, _⟩ := hputcases b
    exact ⟨r, fifo1, hput, h2, h3, h4⟩
  · by_cases hc : fifo.count ≤ 0
    · have hnil : contents C fifo = [] := by
        apply List.eq_nil_of_length_eq_zero
        rw [hlen]
        omega
      rw [FIFO_Get_empty fifo hc, hnil]
      simp [queue_Get, hnil]
    · have hpos : 0 < fifo.count := by omega
      have hcon := contents_Get hR hpos
      rw [hrs] at hcon
      rw [FIFO_Get_ok hR.1 hpos, hcon, hrs]
      simp [queue_Get, byteValue]
  · by_cases hc : fifo.count ≤ 0
    · have hnil : contents C fifo = [] := by
        apply List.eq_nil_of_length_eq_zero
        rw [hlen]
        omega
      rw [FIFO_Peek_empty fifo hc, hnil]
      simp [queue_Peek, hnil]
    · have hpos : 0 < fifo.count := by omega
      have hcon := contents_Get hR hpos
      rw [hrs] at hcon
      rw [FIFO_Peek_ok hR.1 hpos]
      simp only [Option.map_some']
      rw [hcon]
      simp [queue_Peek, byteValue]
  · unfold FIFO_Count uint16_t_wrap queue_Count
    rw [hlen]
    omega

/-- C17 at capacity 4, in the state after two `FIFO_Put`s and a `FIFO_Get`. -/
theorem C17_refines_queue_witness :
    (0 < 4 ∧ 4 ≤ 256) ∧
    (FIFO_Get afterPutPutGet).map (fun r => (r.1, contents 4 r.2))
      = some (queue_Get (contents 4 afterPutPutGet)) ∧
    FIFO_Count afterPutPutGet = queue_Count (contents 4 afterPutPutGet) :=
  ⟨⟨by decide, by decide⟩,
    (C17_refines_queue 4 (by decide) (by decide) afterPutPutGet
      Reachable_afterPutPutGet).2.2.2.2.1,
    (C17_refines_queue 4 (by decide) (by decide) afterPutPutGet
      Reachable_afterPutPutGet).2.2.2.2.2.2⟩

/-- C18: for every capacity `1 ≤ C ≤ 256`, in every state reachable from a new
or cleared FIFO by a sequence of calls (`FIFO_Clear`, `FIFO_Put`, `FIFO_Get`,
`FIFO_Peek`, and `FIFO_Count`, `FIFO_Size`), `putindex == (getindex + count) mod C`;
in particular `getindex == putindex` exactly when the FIFO is empty
(`count == 0`) or full (`count == C`). -/
theorem C18_index_count_coupling (C : Nat) (hC : 0 < C) (hC256 : C ≤ 256)
    (fifo : fifo_type_s) (hreach : Reachable C fifo) :
    0 ≤ fifo.count ∧
    fifo.putindex = (fifo.getindex + fifo.count.toNat) % C ∧
    ((fifo.putindex : Nat) : Int) = (((fifo.getindex : Nat) : Int) + fifo.count) % (C : Int) ∧
    (fifo.getindex = fifo.putindex ↔ (fifo.count = 0 ∨ fifo.count = (C : Int))) := by
  have hrs := ringSize_of_le hC256
  obtain ⟨⟨_, _, hs, hl, hg, hp, h0, h1⟩, h2, h3⟩ := Ring_of_Reachable hC hC256 hreach
  rw [hrs] at hg hp h3
  refine ⟨h0, h3, ?_, ?_⟩
  · have hn : fifo.count = ((fifo.count.toNat : Nat) : Int) := (Int.toNat_of_nonneg h0).symm
    rw [h3]
    conv_rhs => rw [hn]
    push_cast
    rfl
  · constructor
    · intro hgp
      by_contra hne
      have hlt : fifo.count.toNat < C := by omega
      have hpos : 0 < fifo.count.toNat := by omega
      have := add_mod_ne (m := C) (g := fifo.getindex) hpos hlt
      rw [Nat.add_zero, Nat.mod_eq_of_lt hg, ← h3] at this
      exact this hgp
    · rintro (hz | hfull)
      · rw [h3, hz]
        simp [Nat.mod_eq_of_lt hg]
      · have hn : fifo.count.toNat = C := by omega
        rw [h3, hn, Nat.add_mod_right, Nat.mod_eq_of_lt hg]

/-- C18 at capacity 4, in the state after two `FIFO_Put`s and a `FIFO_Get`. -/
theorem C18_index_count_coupling_witness :
    (0 < 4 ∧ 4 ≤ 256) ∧
    afterPutPutGet.putindex
      = (afterPutPutGet.getindex + afterPutPutGet.count.toNat) % 4 ∧
    (afterPutPutGet.getindex = afterPutPutGet.putindex ↔
      (afterPutPutGet.count = 0 ∨ afterPutPutGet.count = 4)) :=
  ⟨⟨by decide, by decide⟩,
    (C18_index_count_coupling 4 (by decide) (by decide) afterPutPutGet
      Reachable_afterPutPutGet).2.1,
    (C18_index_count_coupling 4 (by decide) (by decide) afterPutPutGet
      Reachable_afterPutPutGet).2.2.2⟩

/-! ## Capacities above 256 -/

theorem next_index_above_256 (index : Nat) {size : Int} (h : 256 < size) :
    next_index index size = (index + 1) % 256 := by
  unfold next_index
  rw [if_neg (by omega)]

set_option maxRecDepth 100000 in
/-- C19: the indices are 8-bit while `size` and `count` are 16-bit, so for every
capacity `C > 256` (fitting the `size` field) the comparison `index >= size` is
never true after the increment; a successful `FIFO_Put` sets `putindex` to
`(putindex + 1) mod 256` and a successful `FIFO_Get` sets `getindex` to
`(getindex + 1) mod 256`; hence in every state reached from a new or cleared
FIFO both indices are below 256 and every buffer slot at a position `≥ 256`
still holds what it held at the start (no such slot is written, and the slot
read is the one at `getindex`); yet `FIFO_Put` succeeds whenever `count < C`,
fails when `count` has reached `C`, and `C` calls of it in a row on a new or
cleared FIFO all succeed.  With capacity 257 the write index is back at 0
after 256 calls of `FIFO_Put`. -/
theorem C19_index_arithmetic (C : Nat) (hC : 256 < C) (hC2 : C ≤ 32767) :
    (∀ index : Nat, ¬ ((((index + 1) % 256 : Nat) : Int) ≥ (C : Int))) ∧
    (∀ (fifo fifo1 : fifo_type_s) (putdata : uint8_t) (r : Nat), fifo.size = (C : Int) →
      FIFO_Put fifo putdata = some (r, fifo1) → r ≠ 0 →
      fifo1.putindex = (fifo.putindex + 1) % 256) ∧
    (∀ (fifo fifo1 : fifo_type_s) (r : Int), fifo.size = (C : Int) →
      FIFO_Get fifo = some (r, fifo1) → r ≠ -1 →
      fifo1.getindex = (fifo.getindex + 1) % 256) ∧
    (∀ (start fifo : fifo_type_s) (calls : List fifo_call) (log : List (fifo_call × fifo_ret)),
      Fresh C start → run start calls = some (log, fifo) →
      fifo.getindex < 256 ∧ fifo.putindex < 256 ∧
      (∀ i : Nat, 256 ≤ i → fifo.buffer[i]? = start.buffer[i]?) ∧
      (fifo.count < (C : Int) → ∀ putdata : uint8_t,
        ∃ fifo1, FIFO_Put fifo putdata = some (1, fifo1) ∧
          fifo1.putindex = (fifo.putindex + 1) % 256 ∧ fifo1.count = fifo.count + 1) ∧
      (fifo.count ≥ (C : Int) → ∀ putdata : uint8_t,
        FIFO_Put fifo putdata = some (0, fifo)) ∧
      (0 < fifo.count →
        ∃ (b : uint8_t) (fifo1 : fifo_type_s), fifo.buffer[fifo.getindex]? = some b ∧
          FIFO_Get fifo = some (((b.val : Nat) : Int), fifo1) ∧
          fifo1.getindex = (fifo.getindex + 1) % 256)) ∧
    (∀ (start : fifo_type_s) (bs : List uint8_t), Fresh C start → bs.length = C →
      ∃ fifo1, run start (bs.map fifo_call.Put)
          = some (bs.map (fun b => (fifo_call.Put b, fifo_ret.uint8 1)), fifo1) ∧
        fifo1.count = (C : Int)) ∧
    (run (FIFO_New 257) (List.replicate 256 (fifo_call.Put 0))).map
        (fun r => (r.2.putindex, r.2.count)) = some (0, 256) := by
  have hC0 : 0 < C := by omega
  have hrs : ringSize C = 256 := by
    unfold ringSize
    omega
  refine ⟨?_, ?_, ?_, ?_, ?_, by decide⟩
  · intro index
    omega
  · intro fifo fifo1 putdata r hs hput hr
    rw [FIFO_Put_eq] at hput
    by_cases hc : fifo.count ≥ fifo.size
    · simp only [if_pos hc, Option.some.injEq, Prod.mk.injEq] at hput
      exact absurd hput.1.symm hr
    · by_cases hp : fifo.putindex < fifo.buffer.length
      · simp only [if_neg hc, if_pos hp, Option.some.injEq, Prod.mk.injEq] at hput
        obtain ⟨_, rfl⟩ := hput
        show next_index fifo.putindex fifo.size = (fifo.putindex + 1) % 256
        exact next_index_above_256 _ (by omega)
      · simp [hc, hp] at hput
  · intro fifo fifo1 r hs hget hr
    rw [FIFO_Get_eq] at hget
    by_cases hc : fifo.count ≤ 0
    · simp only [if_pos hc, Option.some.injEq, Prod.mk.injEq] at hget
      exact absurd hget.1.symm hr
    · cases hb : fifo.buffer[fifo.getindex]? with
      | none => simp [hc, hb] at hget
      | some b =>
        simp only [if_neg hc, hb, Option.some.injEq, Prod.mk.injEq] at hget
        obtain ⟨_, rfl⟩ := hget
        show next_index fifo.getindex fifo.size = (fifo.getindex + 1) % 256
        exact next_index_above_256 _ (by omega)
  · intro start fifo calls log hfresh hrun
    obtain ⟨hI, hbuf⟩ := run_Inv calls start fifo log (Inv_of_Fresh hC0 hC2 hfresh).1 hrun
    rw [hrs] at hbuf
    have hI2 := hI
    obtain ⟨_, _, hs, hl, hg, hp, h0, h1⟩ := hI2
    rw [hrs] at hg hp
    refine ⟨hg, hp, hbuf, ?_, ?_, ?_⟩
    · intro hc putdata
      refine ⟨{ fifo with
          buffer := fifo.buffer.set fifo.putindex putdata
          putindex := (fifo.putindex + 1) % ringSize C
          count := fifo.count + 1 }, FIFO_Put_ok putdata hI hc, ?_, rfl⟩
      show (fifo.putindex + 1) % ringSize C = (fifo.putindex + 1) % 256
      rw [hrs]
    · intro hc putdata
      exact FIFO_Put_full fifo putdata (by omega)
    · intro hpos
      have hgl : fifo.getindex < fifo.buffer.length := by omega
      refine ⟨fifo.buffer[fifo.getindex],
        { fifo with
          getindex := (fifo.getindex + 1) % ringSize C
          count := fifo.count - 1 }, List.getElem?_eq_getElem hgl, ?_, ?_⟩
      · rw [FIFO_Get_ok hI hpos, List.getD_eq_getElem _ _ hgl]
        rfl
      · show (fifo.getindex + 1) % ringSize C = (fifo.getindex + 1) % 256
        rw [hrs]
  · intro start bs hfresh hlen
    obtain ⟨hI, hz, _, _⟩ := Inv_of_Fresh hC0 hC2 hfresh
    obtain ⟨f1, hr1, _, hc1⟩ := run_Put_batch_Inv bs start hI (by rw [hz, hlen]; simp)
    rw [hz, hlen, zero_add] at hc1
    exact ⟨f1, hr1, hc1⟩

/-- C19 at capacity 257. -/
theorem C19_index_arithmetic_witness :
    (256 < 257 ∧ 257 ≤ 32767) ∧
    (∀ index : Nat, ¬ ((((index + 1) % 256 : Nat) : Int) ≥ ((257 : Nat) : Int))) ∧
    (run (FIFO_New 257) (List.replicate 256 (fifo_call.Put 0))).map
        (fun r => (r.2.putindex, r.2.count)) = some (0, 256) :=
  ⟨⟨by decide, by decide⟩, (C19_index_arithmetic 257 (by decide) (by decide)).1,
    (C19_index_arithmetic 257 (by decide) (by decide)).2.2.2.2.2⟩

end FIFO
